import Mathlib

/-!
Verification of the clox-style bytecode VM runtime in this repository:
a shallow embedding of `table.c`, `object.c`, `memory.c` and `vm.c`
(value representation, interned strings, the open-addressed hash table,
the interpreter's calling convention and the mark-sweep collector),
together with proofs and refutations of the specification's claims.

Machine integers are modelled as `Nat` with explicit `% 2 ^ 32` where the C
code relies on `uint32_t` wrap-around (the FNV-1a hash).  C pointers are
modelled by their identity: a `Nat` address.  Loops whose termination the C
code does not enforce syntactically (the probe loops of `findEntry` and
`tableFindString`) are given fuel equal to the table capacity; returning
`none` models the C loop failing to terminate, and we prove it cannot
happen on well-formed tables.
-/

set_option autoImplicit false

namespace Clox

/-- Struct `ObjString` (src/object.h): `id` is the address of the
`ObjString` header itself (C compares keys with `entry->key == key`,
i.e. by this identity), `charsPtr` the address of the `char *chars`
buffer, `chars` the (immutable) bytes behind it, `hash` the cached
FNV-1a hash (`uint32_t`). -/
structure ObjString where
  id : Nat
  length : Nat
  charsPtr : Nat
  chars : List Nat
  hash : Nat
deriving DecidableEq

/-- Type `Value` (value.h): tagged union over nil, bool, number and object
reference.  The number payload is the raw bit pattern of the IEEE-754
double; none of the verified claims computes with it.  An object
reference is the address of the heap object. -/
inductive Value where
  | nil : Value
  | bool (b : Bool) : Value
  | number (bits : Nat) : Value
  | obj (id : Nat) : Value
deriving DecidableEq

/-- Struct `Entry` (table.h): a bucket of the open-addressed table. -/
structure Entry where
  key : Option ObjString
  value : Value
deriving DecidableEq

/-- Struct `Table` (table.h). -/
structure Table where
  count : Nat
  capacity : Nat
  entries : List Entry
deriving DecidableEq

/-- The all-nil bucket `adjustCapacity` initialises buckets with. -/
def emptyEntry : Entry := ⟨none, Value.nil⟩

/-- Function `initTable` (table.c). -/
def initTable : Table := ⟨0, 0, []⟩

/-- Modelled from the spec: `GROW_CAPACITY` lives in `memory.h`, which is
not among the provided sources.  Spec §4.1: "capacity starts at 0; first
growth goes to 8; subsequent growths double." -/
def GROW_CAPACITY (capacity : Nat) : Nat :=
  if capacity < 8 then 8 else 2 * capacity

/-- Function `hashString` (src/object.c): 32-bit FNV-1a over the bytes. -/
def hashString (key : List Nat) : Nat :=
  key.foldl (fun h b => ((h ^^^ (b % 256)) * 16777619) % 2 ^ 32) 2166136261

/-- A bucket that is truly empty (`key == NULL && IS_NIL(value)`). -/
def Entry.isEmptySlot (e : Entry) : Prop := e.key = none ∧ e.value = Value.nil

/-- A tombstone bucket (`key == NULL`, `value == BOOL_VAL(true)`). -/
def Entry.isTombstone (e : Entry) : Prop := e.key = none ∧ e.value = Value.bool true

instance (e : Entry) : Decidable e.isEmptySlot := by
  unfold Entry.isEmptySlot; infer_instance

instance (e : Entry) : Decidable e.isTombstone := by
  unfold Entry.isTombstone; infer_instance

/-- The probe sequence of linear probing: `j` steps after `start`,
wrapped modulo the capacity (`index = (index + 1) % capacity`). -/
def probeIdx (capacity start j : Nat) : Nat := (start + j) % capacity

/-- The loop body of `findEntry` (src/table.c, lines 31-51), with fuel.
`none` models the C loop never reaching an empty bucket. -/
def findEntryGo (entries : List Entry) (capacity : Nat) (key : ObjString) :
    Nat → Nat → Option Nat → Option Nat
  | 0, _, _ => none
  | fuel + 1, index, tombstone =>
    match (entries.getD index emptyEntry).key with
    | none =>
      if (entries.getD index emptyEntry).value = Value.nil then
        some (tombstone.getD index)
      else
        findEntryGo entries capacity key fuel ((index + 1) % capacity)
          (some (tombstone.getD index))
    | some k =>
      if k = key then some index
      else findEntryGo entries capacity key fuel ((index + 1) % capacity) tombstone

/-- Function `findEntry` (src/table.c): probe from `key->hash % capacity`.  The
result is the index of the returned bucket. -/
def findEntry (entries : List Entry) (capacity : Nat) (key : ObjString) : Option Nat :=
  findEntryGo entries capacity key capacity (key.hash % capacity) none

/-- Function `tableGet` (src/table.c).  Outer `none` = divergence of the probe
loop; `some none` = key absent (C returns false); `some (some v)` =
found. -/
def tableGet (table : Table) (key : ObjString) : Option (Option Value) :=
  if table.count = 0 then some none
  else
    match findEntry table.entries table.capacity key with
    | none => none
    | some i =>
      let e := table.entries.getD i emptyEntry
      match e.key with
      | none => some none
      | some _ => some (some e.value)

/-- One iteration of the replay loop of `adjustCapacity` (src/table.c):
skip `NULL` keys, reinsert a live entry through `findEntry` on the new
array and count it. -/
def replayStep (capacity : Nat) (acc : Option (List Entry × Nat)) (e : Entry) :
    Option (List Entry × Nat) :=
  match acc, e.key with
  | none, _ => none
  | some st, none => some st
  | some st, some k =>
    match findEntry st.1 capacity k with
    | none => none
    | some i => some (st.1.set i ⟨some k, e.value⟩, st.2 + 1)

/-- Function `adjustCapacity` (src/table.c): fresh all-nil array, replay every
live entry through `findEntry` on the new array, counting only the live
entries (`table->count = 0` first, `table->count++` per live entry). -/
def adjustCapacity (table : Table) (capacity : Nat) : Option Table :=
  (table.entries.foldl (replayStep capacity)
    (some (List.replicate capacity emptyEntry, 0))).map
    (fun st => { count := st.2, capacity := capacity, entries := st.1 })

/-- Function `tableSet` (src/table.c).  The C growth test
`count + 1 > capacity * 0.75` is exact dyadic arithmetic (0.75 = 3/4),
hence equivalent to `4 * (count + 1) > 3 * capacity`. -/
def tableSet (table : Table) (key : ObjString) (value : Value) :
    Option (Bool × Table) :=
  match (if 4 * (table.count + 1) > 3 * table.capacity then
           adjustCapacity table (GROW_CAPACITY table.capacity)
         else some table) with
  | none => none
  | some t =>
    match findEntry t.entries t.capacity key with
    | none => none
    | some i =>
      let e := t.entries.getD i emptyEntry
      let isNewKey : Bool := e.key.isNone
      let count := if isNewKey = true ∧ e.value = Value.nil then t.count + 1 else t.count
      some (isNewKey, { t with count := count, entries := t.entries.set i ⟨some key, value⟩ })

/-- Function `tableDelete` (src/table.c): place a tombstone, never touch `count`. -/
def tableDelete (table : Table) (key : ObjString) : Option (Bool × Table) :=
  if table.count = 0 then some (false, table)
  else
    match findEntry table.entries table.capacity key with
    | none => none
    | some i =>
      match (table.entries.getD i emptyEntry).key with
      | none => some (false, table)
      | some _ =>
        some (true, { table with entries := table.entries.set i ⟨none, Value.bool true⟩ })

/-- The loop body of `tableFindString` (src/table.c, lines 148-161):
content-addressed probe comparing length, then hash, then bytes. -/
def tableFindStringGo (entries : List Entry) (capacity : Nat) (chars : List Nat)
    (length hash : Nat) : Nat → Nat → Option (Option ObjString)
  | 0, _ => none
  | fuel + 1, index =>
    match (entries.getD index emptyEntry).key with
    | none =>
      if (entries.getD index emptyEntry).value = Value.nil then some none
      else tableFindStringGo entries capacity chars length hash fuel ((index + 1) % capacity)
    | some k =>
      if k.length = length ∧ k.hash = hash ∧ k.chars = chars then some (some k)
      else tableFindStringGo entries capacity chars length hash fuel ((index + 1) % capacity)

/-- Function `tableFindString` (src/table.c). -/
def tableFindString (table : Table) (chars : List Nat) (length hash : Nat) :
    Option (Option ObjString) :=
  if table.count = 0 then some none
  else tableFindStringGo table.entries table.capacity chars length hash
    table.capacity (hash % table.capacity)

/-- Buckets that are not truly empty: the live entries plus the
tombstones.  `tableSet` keeps `count` equal to this quantity. -/
def countNonEmpty (entries : List Entry) : Nat :=
  entries.countP (fun e => decide ¬ e.isEmptySlot)

/-- The live buckets. -/
def countLive (entries : List Entry) : Nat :=
  entries.countP (fun e => e.key.isSome)

/-- A key stored at bucket `i` is reachable by the probe loop: it sits
`j` steps along its own probe sequence and no truly empty bucket occurs
strictly earlier on that sequence. -/
def Findable (entries : List Entry) (capacity : Nat) (k : ObjString) (i : Nat) : Prop :=
  ∃ j ∈ List.range capacity,
    probeIdx capacity (k.hash % capacity) j = i ∧
    ∀ j' ∈ List.range j,
      ¬ (entries.getD (probeIdx capacity (k.hash % capacity) j') emptyEntry).isEmptySlot

instance (entries : List Entry) (capacity : Nat) (k : ObjString) (i : Nat) :
    Decidable (Findable entries capacity k i) := by
  unfold Findable; infer_instance

/-- The bucket at index `i`, if live, is findable by its probe sequence. -/
def slotFindable (entries : List Entry) (capacity i : Nat) : Prop :=
  match (entries.getD i emptyEntry).key with
  | none => True
  | some k => Findable entries capacity k i

instance (entries : List Entry) (capacity i : Nat) :
    Decidable (slotFindable entries capacity i) := by
  unfold slotFindable
  exact match (entries.getD i emptyEntry).key with
  | none => inferInstanceAs (Decidable True)
  | some _ => inferInstance

/-- Well-formedness invariant maintained by the table operations:
the bucket array has `capacity` buckets; `count` counts the non-empty
buckets; the load factor bound holds; a `NULL`-keyed bucket is empty or
a tombstone; distinct buckets hold distinct keys; every stored key is
findable by its probe sequence. -/
def Table.WF (t : Table) : Prop :=
  t.entries.length = t.capacity ∧
  t.count = countNonEmpty t.entries ∧
  4 * t.count ≤ 3 * t.capacity ∧
  (∀ e ∈ t.entries, e.key = none → e.value = Value.nil ∨ e.value = Value.bool true) ∧
  (∀ i ∈ List.range t.capacity, ∀ j ∈ List.range t.capacity, i ≠ j →
    (t.entries.getD i emptyEntry).key.isSome = true →
    (t.entries.getD i emptyEntry).key ≠ (t.entries.getD j emptyEntry).key) ∧
  (∀ i ∈ List.range t.capacity, slotFindable t.entries t.capacity i)

instance (t : Table) : Decidable t.WF := by
  unfold Table.WF; infer_instance

/-- Reference lookup function of the model: the value carried by the
bucket whose key is `k`, if any. -/
def Table.lookup (t : Table) (k : ObjString) : Option Value :=
  (t.entries.find? (fun e => decide (e.key = some k))).map (·.value)

/-- Whether some bucket holds key `k`. -/
def Table.hasKey (t : Table) (k : ObjString) : Prop :=
  ∃ e ∈ t.entries, e.key = some k

instance (t : Table) (k : ObjString) : Decidable (t.hasKey k) := by
  unfold Table.hasKey; infer_instance

/-- Whether the bucket at some index holds exactly the pair `(k, v)`. -/
def Table.holds (t : Table) (k : ObjString) (v : Value) : Prop :=
  ∃ s, s < t.capacity ∧ t.entries.getD s emptyEntry = ⟨some k, v⟩

instance (t : Table) (k : ObjString) (v : Value) : Decidable (t.holds k v) := by
  unfold Table.holds
  infer_instance

/-- No bucket is a tombstone (true of a freshly replayed array). -/
def NoTombstones (es : List Entry) : Prop :=
  ∀ e ∈ es, e.key = none → e.value = Value.nil

/-- The cached `hash` and `length` of a stored key agree with its
bytes (true of every `ObjString` built by `allocateString`). -/
def keyHashOk (e : Entry) : Prop :=
  match e.key with
  | none => True
  | some k => k.hash = hashString k.chars ∧ k.length = k.chars.length

instance (e : Entry) : Decidable (keyHashOk e) := by
  unfold keyHashOk
  exact match e.key with
  | none => inferInstanceAs (Decidable True)
  | some _ => inferInstance

/-- Invariant of the string-intern table `vm.strings`: well formed,
hashes cached correctly, and no two distinct buckets hold keys with the
same bytes. -/
def InternWF (t : Table) : Prop :=
  t.WF ∧
  (∀ e ∈ t.entries, keyHashOk e) ∧
  (∀ i ∈ List.range t.capacity, ∀ j ∈ List.range t.capacity, i ≠ j →
    (t.entries.getD i emptyEntry).key.isSome = true →
    Option.map ObjString.chars (t.entries.getD i emptyEntry).key ≠
    Option.map ObjString.chars (t.entries.getD j emptyEntry).key)

instance (t : Table) : Decidable (InternWF t) := by
  unfold InternWF
  infer_instance

/-! ### Heap objects and the VM state -/

/-- Reference to an `ObjFunction`: its address and its (immutable)
`arity` field, read by `call` through `closure->function->arity`. -/
structure FunctionRef where
  id : Nat
  arity : Nat
deriving DecidableEq

/-- The data of one heap object, by variant — the merged object set
that src/memory.c and src/vm.c operate on (src/object.h only declares
the string and function variants; see C4).  References to other heap
objects are addresses. -/
inductive HeapData where
  | strObj (s : ObjString)
  | funcObj (arity : Nat) (name : Option Nat) (constants : List Value)
  | nativeObj (fn : Nat)
  | closureObj (function : FunctionRef) (upvalues : List Nat)
  | upvalueObj (closed : Value)
  | classObj (name : Nat) (methods : Table)
  | instanceObj (klass : Nat) (fields : Table)
  | boundMethodObj (receiver : Value) (method : Nat)
deriving DecidableEq

/-- Struct `CallFrame` (vm.h; modelled from the spec §4.3: closure,
instruction pointer, base-slot pointer): `closure` is the closure
object's address, `ip` an offset into its chunk, `slots` the base index
into the operand stack. -/
structure CallFrame where
  closure : Nat
  ip : Nat
  slots : Nat
deriving DecidableEq

/-- The VM state (vm.h is not among the sources; the field set is
modelled from the spec §4.3 and from every use in src/vm.c,
src/object.c and src/memory.c).  `stack` is the live window
`[vm.stack, vm.stackTop)`; `objects` is the intrusive allocation list,
head = newest; `openUpvalues` lists the addresses along the open-upvalue
chain; `buffers` the live character buffers as `(pointer, size)` pairs;
`compilerRoots` the objects the compiler reports to `markCompilerRoots`;
`nextAddr` a fresh-address counter standing for the host allocator. -/
structure VM where
  stack : List Value
  frames : List CallFrame
  globals : Table
  strings : Table
  initString : Option ObjString
  openUpvalues : List Nat
  objects : List (Nat × HeapData)
  buffers : List (Nat × Nat)
  compilerRoots : List Nat
  nextAddr : Nat
deriving DecidableEq

/-- Look an object up in the allocation list by address. -/
def heapGet (objects : List (Nat × HeapData)) (id : Nat) : Option HeapData :=
  (objects.find? (fun p => p.1 == id)).map (·.2)

/-- Function `allocateObject` (src/object.c): allocate, set the type tag, and
link the new object at the head of `vm.objects`.  Note: the source
initialises only `type` and `next` — src/object.h's header has no
`isMarked` field to clear (see C4). -/
def allocateObject (vm : VM) (d : HeapData) : VM × Nat :=
  ({ vm with objects := (vm.nextAddr, d) :: vm.objects, nextAddr := vm.nextAddr + 1 },
   vm.nextAddr)

/-- Function `allocateString` (src/object.c): wrap the buffer in a fresh
`ObjString` and immediately intern it as a key of `vm.strings`
(`tableSet(&vm.strings, string, NIL_VAL)`). -/
def allocateString (vm : VM) (charsPtr : Nat) (chars : List Nat) (length hash : Nat) :
    Option (VM × ObjString) :=
  let s : ObjString := ⟨vm.nextAddr, length, charsPtr, chars, hash⟩
  let av := allocateObject vm (HeapData.strObj s)
  match tableSet av.1.strings s Value.nil with
  | none => none
  | some bt => some ({ av.1 with strings := bt.2 }, s)

/-- Function `takeString` (src/object.c): hash the bytes, consult the intern
pool; when the content is already interned, free the caller's buffer
(`FREE_ARRAY(char, chars, length + 1)`) and return the canonical
string; otherwise take ownership of the buffer. -/
def takeString (vm : VM) (charsPtr : Nat) (chars : List Nat) (length : Nat) :
    Option (VM × ObjString) :=
  let hash := hashString chars
  match tableFindString vm.strings chars length hash with
  | none => none
  | some (some interned) =>
    some ({ vm with buffers := vm.buffers.erase (charsPtr, length + 1) }, interned)
  | some none => allocateString vm charsPtr chars length hash

/-- Function `copyString` (src/object.c): hash the bytes, consult the intern
pool; when interned, return the canonical string without any
allocation; otherwise copy the bytes into a fresh `length + 1`-byte
heap buffer and allocate. -/
def copyString (vm : VM) (chars : List Nat) (length : Nat) : Option (VM × ObjString) :=
  let hash := hashString chars
  match tableFindString vm.strings chars length hash with
  | none => none
  | some (some interned) => some (vm, interned)
  | some none =>
    let heapChars := vm.nextAddr
    let vm' : VM :=
      { vm with
        buffers := (heapChars, length + 1) :: vm.buffers
        nextAddr := vm.nextAddr + 1 }
    allocateString vm' heapChars chars length hash

/-- Either interning entry point of the VM: `takeString` for
concatenation results, `copyString` for source-text bytes. -/
def stringIntern (useTake : Bool) (charsPtr : Nat) (vm : VM) (chars : List Nat)
    (length : Nat) : Option (VM × ObjString) :=
  if useTake then takeString vm charsPtr chars length else copyString vm chars length

/-! ### The interpreter: stack, frames, calls -/

/-- Modelled from the spec: `FRAMES_MAX` lives in vm.h, which is not
among the sources; spec §4.3: "a fixed-depth array of call frames with
a frame counter (e.g., 64 frames)". -/
def FRAMES_MAX : Nat := 64

/-- Modelled from the spec: `STACK_MAX` lives in vm.h, which is not
among the sources; spec §4.3: "an operand stack of fixed maximum depth
(e.g., 256·64 = 16384 values)". -/
def STACK_MAX : Nat := 256 * FRAMES_MAX

/-- Function `resetStack` (src/vm.c). -/
def resetStack (vm : VM) : VM :=
  { vm with stack := [], frames := [], openUpvalues := [] }

/-- Function `push` (src/vm.c): `*vm.stackTop = value; vm.stackTop++;`.
There is no capacity check: the write happens unconditionally, and on a
full stack the C code writes past the end of the fixed array (see C3);
the model appends to the live window, so the window can exceed
`STACK_MAX`. -/
def push (vm : VM) (value : Value) : VM :=
  { vm with stack := vm.stack ++ [value] }

/-- Function `pop` (src/vm.c). -/
def pop (vm : VM) : VM × Value :=
  ({ vm with stack := vm.stack.dropLast }, vm.stack.getLastD Value.nil)

/-- Function `peek` (src/vm.c): `vm.stackTop[-1 - distance]`. -/
def peek (vm : VM) (distance : Nat) : Value :=
  vm.stack.getD (vm.stack.length - 1 - distance) Value.nil

/-- Outcome of the call helpers of src/vm.c: `true` (ok) or `false`
after `runtimeError` (which resets the stack). -/
inductive CallResult where
  | ok (vm : VM)
  | rtError (vm : VM)
deriving DecidableEq

/-- Function `call` (src/vm.c, lines 72-89): arity check against
`closure->function->arity`; hard frame limit `FRAMES_MAX` (message
"stack overflow."); then the new frame with `ip` at the chunk start and
base slot `stackTop - argCount - 1`.  The `none` result models a
type-confused `ObjClosure*`. -/
def call (vm : VM) (closureId : Nat) (argCount : Nat) : Option CallResult :=
  match heapGet vm.objects closureId with
  | some (HeapData.closureObj fn _) =>
    if argCount ≠ fn.arity then some (CallResult.rtError (resetStack vm))
    else if vm.frames.length = FRAMES_MAX then some (CallResult.rtError (resetStack vm))
    else some (CallResult.ok { vm with
      frames := vm.frames ++ [⟨closureId, 0, vm.stack.length - argCount - 1⟩] })
  | _ => none

/-- Function `callValue` (src/vm.c, lines 91-140): dispatch on the
callee's object type.  `natives` supplies the host behaviour of native
functions.  In the class case the callee's stack slot is overwritten
with a fresh instance (`newInstance` is not among the sources; it is
modelled from the spec §3: an instance is a class reference plus an
empty field table, allocated and linked like every object); then
`init` is looked up in the method table under the cached
`vm.initString` key. -/
def callValue (natives : Nat → Nat → List Value → Value) (vm : VM) (callee : Value)
    (argCount : Nat) : Option CallResult :=
  match callee with
  | Value.obj id =>
    match heapGet vm.objects id with
    | some (HeapData.boundMethodObj receiver method) =>
      let vm' := { vm with
        stack := vm.stack.set (vm.stack.length - argCount - 1) receiver }
      call vm' method argCount
    | some (HeapData.classObj _ methods) =>
      let av := allocateObject vm (HeapData.instanceObj id initTable)
      let vm' := { av.1 with
        stack := av.1.stack.set (av.1.stack.length - argCount - 1) (Value.obj av.2) }
      match vm.initString with
      | none => none
      | some initStr =>
        match tableGet methods initStr with
        | none => none
        | some (some initializer) =>
          match initializer with
          | Value.obj cid => call vm' cid argCount
          | _ => none
        | some none =>
          if argCount ≠ 0 then some (CallResult.rtError (resetStack vm'))
          else some (CallResult.ok vm')
    | some (HeapData.closureObj _ _) => call vm id argCount
    | some (HeapData.nativeObj fn) =>
      let args := vm.stack.drop (vm.stack.length - argCount)
      let result := natives fn argCount args
      let vm' := { vm with stack := vm.stack.take (vm.stack.length - argCount - 1) }
      some (CallResult.ok (push vm' result))
    | _ => some (CallResult.rtError (resetStack vm))
  | _ => some (CallResult.rtError (resetStack vm))

/-- Outcome of one interpreter-loop case of `run` (src/vm.c). -/
inductive StepResult where
  | next (vm : VM)
  | runtimeError (vm : VM)
deriving DecidableEq

/-- Case `OP_SET_GLOBAL` of `run` (src/vm.c, lines 355-368):
`tableSet` the name to `peek(0)`; if the key was new, delete it again,
raise a runtime error and return `INTERPRET_RUNTIME_ERROR`; otherwise
fall through WITHOUT popping. -/
def opSetGlobal (vm : VM) (name : ObjString) : Option StepResult :=
  match tableSet vm.globals name (peek vm 0) with
  | none => none
  | some (isNewKey, globals') =>
    if isNewKey then
      match tableDelete globals' name with
      | none => none
      | some bt =>
        some (StepResult.runtimeError (resetStack { vm with globals := bt.2 }))
    else
      some (StepResult.next { vm with globals := globals' })

/-- Case `OP_GET_GLOBAL` of `run` (src/vm.c, lines 406-416): look the
name up in the globals; runtime error if unbound, else push. -/
def opGetGlobal (vm : VM) (name : ObjString) : Option StepResult :=
  match tableGet vm.globals name with
  | none => none
  | some none => some (StepResult.runtimeError (resetStack vm))
  | some (some value) => some (StepResult.next (push vm value))

/-! ### The garbage collector -/

/-- Function `markObject` (src/memory.c, lines 41-73): no-op on NULL
and on already-marked objects; otherwise set the mark bit and push the
object on the gray worklist.  The mark bits live in the set `mg.1`
(the header declared in src/object.h has no `isMarked` field to carry
them; see C4); the worklist `mg.2` is LIFO with its head on top. -/
def markObject (mg : List Nat × List Nat) (id : Option Nat) : List Nat × List Nat :=
  match id with
  | none => mg
  | some i => if i ∈ mg.1 then mg else (i :: mg.1, i :: mg.2)

/-- Function `markValue` (src/memory.c): only object references are
marked. -/
def markValue (mg : List Nat × List Nat) (v : Value) : List Nat × List Nat :=
  match v with
  | Value.obj id => markObject mg (some id)
  | _ => mg

/-- Function `markTable` (src/table.c, lines 164-170): mark every
bucket's key object and value. -/
def markTable (mg : List Nat × List Nat) (t : Table) : List Nat × List Nat :=
  t.entries.foldl
    (fun mg e => markValue (markObject mg (e.key.map ObjString.id)) e.value) mg

/-- Function `markArray` (src/memory.c). -/
def markArray (mg : List Nat × List Nat) (vs : List Value) : List Nat × List Nat :=
  vs.foldl markValue mg

/-- Function `blackenObject` (src/memory.c, lines 86-127).  Faithful to
the source: the class case marks ONLY `klass->name` — the method table
is not traced (see C2) — and the switch has no `OBJ_BOUND_METHOD` case,
so a bound method marks nothing. -/
def blackenObject (objects : List (Nat × HeapData)) (mg : List Nat × List Nat)
    (id : Nat) : List Nat × List Nat :=
  match heapGet objects id with
  | some (HeapData.instanceObj klass fields) =>
    markTable (markObject mg (some klass)) fields
  | some (HeapData.classObj name _) =>
    markObject mg (some name)
  | some (HeapData.closureObj fn upvalues) =>
    upvalues.foldl (fun mg u => markObject mg (some u)) (markObject mg (some fn.id))
  | some (HeapData.funcObj _ name constants) =>
    markArray (markObject mg name) constants
  | some (HeapData.upvalueObj closed) => markValue mg closed
  | some (HeapData.nativeObj _) => mg
  | some (HeapData.strObj _) => mg
  | some (HeapData.boundMethodObj _ _) => mg
  | none => mg

/-- Function `markRoots` (src/memory.c, lines 176-200): stack values,
frame closures, the open-upvalue list, the globals table, and the
compiler's roots (`markCompilerRoots` lives in the compiler, which is
not among the sources; modelled from the spec §4.2: "every root
reported by the compiler").  Faithful to the source: `vm.initString`
is NOT marked (see C1). -/
def markRoots (vm : VM) : List Nat × List Nat :=
  let mg := vm.stack.foldl markValue ([], [])
  let mg := vm.frames.foldl (fun mg f => markObject mg (some f.closure)) mg
  let mg := vm.openUpvalues.foldl (fun mg u => markObject mg (some u)) mg
  let mg := markTable mg vm.globals
  vm.compilerRoots.foldl (fun mg r => markObject mg (some r)) mg

/-- Function `traceReferences` (src/memory.c): pop the worklist and
blacken until it is empty; fuel-bounded in the model. -/
def traceReferences (objects : List (Nat × HeapData)) :
    Nat → List Nat × List Nat → Option (List Nat)
  | 0, mg => if mg.2 = [] then some mg.1 else none
  | fuel + 1, mg =>
    match mg.2 with
    | [] => some mg.1
    | id :: gray => traceReferences objects fuel (blackenObject objects (mg.1, gray) id)

/-- Modelled from the spec: `tableRemoveWhite` is called by
`collectGarbage` but its definition is not among the provided sources
(src/table.c ends at `markTable`).  Spec §4.2 step 3: "For every entry
in the intern table whose key is unmarked, delete the entry
(tombstone)." -/
def tableRemoveWhite (marked : List Nat) (t : Table) : Table :=
  { t with entries := t.entries.map (fun e =>
      match e.key with
      | some k => if k.id ∈ marked then e else ⟨none, Value.bool true⟩
      | none => e) }

/-- Function `sweep` (src/memory.c, lines 211-232): walk the
allocation list, unlink and free every unmarked object, clear the mark
bit on survivors (the model discards the mark set after the cycle,
which is equivalent). -/
def sweep (marked : List Nat) (objects : List (Nat × HeapData)) :
    List (Nat × HeapData) :=
  objects.filter (fun p => decide (p.1 ∈ marked))

/-- Function `collectGarbage` (src/memory.c, lines 234-260): mark
roots, trace, weak-scan the intern pool, sweep.  The `nextGC`
retuning only schedules future collections and is not modelled. -/
def collectGarbage (vm : VM) : Option VM :=
  let mg := markRoots vm
  match traceReferences vm.objects (vm.objects.length + mg.2.length + 1) mg with
  | none => none
  | some marked =>
    some { vm with
      strings := tableRemoveWhite marked vm.strings
      objects := sweep marked vm.objects }

/-- Function `defineNative` (src/vm.c, lines 62-68): intern the name,
push it, allocate and push the native, publish the pair in the globals
(`vm.stack[0]`, `vm.stack[1]`), pop both. -/
def defineNative (vm : VM) (name : List Nat) (fn : Nat) : Option VM :=
  match copyString vm name name.length with
  | none => none
  | some (vm1, nameStr) =>
    let vm2 := push vm1 (Value.obj nameStr.id)
    let av := allocateObject vm2 (HeapData.nativeObj fn)
    let vm3 := push av.1 (Value.obj av.2)
    match tableSet vm3.globals nameStr (vm3.stack.getD 1 Value.nil) with
    | none => none
    | some bt =>
      some ((pop (pop { vm3 with globals := bt.2 }).1).1)

/-- The VM state before `initVM` runs: empty stack and tables, no
objects, address counter at zero. -/
def emptyVM : VM :=
  ⟨[], [], initTable, initTable, none, [], [], [], [], 0⟩

/-- Function `initVM` (src/vm.c, lines 250-267): reset, fresh tables,
`vm.initString = copyString("init", 4)`, then register the native
`clock`.  The byte lists are the ASCII bytes of "init" and "clock". -/
def initVM : Option VM :=
  match copyString emptyVM [105, 110, 105, 116] 4 with
  | none => none
  | some (vm1, initStr) =>
    defineNative { vm1 with initString := some initStr } [99, 108, 111, 99, 107] 0

/-! ### The object header of src/object.h -/

/-- Enum `ObjType` exactly as declared in src/object.h (lines 18-21):
only two variants. -/
inductive ObjTypeHeader where
  | OBJ_STRING
  | OBJ_FUNCTION
deriving DecidableEq

/-- Struct `Obj` exactly as declared in src/object.h (lines 23-26): a
`type` tag and the intrusive `next` link — and nothing else; in
particular no `isMarked` bit. -/
structure ObjHeader where
  type : ObjTypeHeader
  next : Option Nat
deriving DecidableEq

/-- Every variant of src/object.h's `ObjType`. -/
def objTypeHeaderAll : List ObjTypeHeader :=
  [ObjTypeHeader.OBJ_STRING, ObjTypeHeader.OBJ_FUNCTION]

/-- Modelled from the spec §3 ("`type`: discriminant naming the variant
(string, function, native, closure, upvalue, class, instance,
bound-method)"): the eight-variant discriminant that src/memory.c and
src/vm.c actually switch over. -/
inductive ObjType where
  | OBJ_STRING
  | OBJ_FUNCTION
  | OBJ_NATIVE
  | OBJ_CLOSURE
  | OBJ_UPVALUE
  | OBJ_CLASS
  | OBJ_INSTANCE
  | OBJ_BOUND_METHOD
deriving DecidableEq

/-- Every variant of the intended eight-variant discriminant. -/
def objTypeAll : List ObjType :=
  [ObjType.OBJ_STRING, ObjType.OBJ_FUNCTION, ObjType.OBJ_NATIVE, ObjType.OBJ_CLOSURE,
   ObjType.OBJ_UPVALUE, ObjType.OBJ_CLASS, ObjType.OBJ_INSTANCE,
   ObjType.OBJ_BOUND_METHOD]

/-! ### Concrete states used by the witnesses and counterexamples -/

/-- A one-byte string "a" used as a concrete table key. -/
def keyA : ObjString := ⟨0, 1, 100, [97], hashString [97]⟩

/-- A one-byte string "b" used as a concrete table key. -/
def keyB : ObjString := ⟨1, 1, 101, [98], hashString [98]⟩

/-- A concrete well-formed table holding only the key "a". -/
def tblA : Table :=
  ((tableSet initTable keyA (Value.number 1)).getD (false, initTable)).2

/-- The table `tblA` after deleting "a" (one tombstone). -/
def tblAdel : Table :=
  ((tableDelete tblA keyA).getD (false, initTable)).2

/-- The VM state `initVM` builds, read off the model. -/
def c1vm0 : VM := initVM.getD emptyVM

/-- The state after the first garbage collection on `c1vm0`. -/
def c1vm1 : VM := (collectGarbage c1vm0).getD emptyVM

/-- The interned "init" sentinel as `initVM` creates it: the second
allocation ever (address 1; address 0 is its character buffer). -/
def c1initStr : ObjString := ⟨1, 4, 0, [105, 110, 105, 116], hashString [105, 110, 105, 116]⟩

/-- The interned "clock" name as `initVM` creates it (address 3, its
buffer at address 2). -/
def c1clockStr : ObjString :=
  ⟨3, 5, 2, [99, 108, 111, 99, 107], hashString [99, 108, 111, 99, 107]⟩

/-- An "init" method name string living at heap address 0. -/
def c2initStr : ObjString := ⟨0, 4, 60, [105, 110, 105, 116], hashString [105, 110, 105, 116]⟩

/-- A class name string ("C") at heap address 11. -/
def c2name : ObjString := ⟨11, 1, 70, [67], hashString [67]⟩

/-- A method table mapping "init" to the closure at address 12. -/
def c2methods : Table :=
  ((tableSet initTable c2initStr (Value.obj 12)).getD (false, initTable)).2

/-- A VM whose only root is a class (address 10) whose method table
holds the closure 12 (of function 13); the class's name string is 11. -/
def c2vm : VM :=
  { emptyVM with
    stack := [Value.obj 10]
    initString := some c2initStr
    objects := [(10, HeapData.classObj 11 c2methods), (11, HeapData.strObj c2name),
                (12, HeapData.closureObj ⟨13, 0⟩ []), (13, HeapData.funcObj 0 none [])]
    nextAddr := 14 }

/-- The state after one garbage collection on `c2vm`. -/
def c2vm' : VM := (collectGarbage c2vm).getD emptyVM

/-- A VM whose operand stack is exactly full (`STACK_MAX` values). -/
def fullVM : VM := { emptyVM with stack := List.replicate STACK_MAX Value.nil }

/-- A VM with a zero-arity closure at address 0 and all `FRAMES_MAX`
call frames in use. -/
def c3closVM : VM :=
  { emptyVM with
    stack := [Value.obj 0]
    frames := List.replicate FRAMES_MAX ⟨0, 0, 0⟩
    objects := [(0, HeapData.closureObj ⟨1, 0⟩ [])] }

/-- The VM after interning "a" into the empty state with `copyString`. -/
def c5vm1 : VM := ((copyString emptyVM [97] 1).getD (emptyVM, keyA)).1

/-- The string `copyString` returns for "a" on the empty state. -/
def c5s1 : ObjString := ((copyString emptyVM [97] 1).getD (emptyVM, keyA)).2

/-- The VM after interning "a" a second time. -/
def c5vm2 : VM := ((copyString c5vm1 [97] 1).getD (emptyVM, keyA)).1

/-- The string the second interning of "a" returns. -/
def c5s2 : ObjString := ((copyString c5vm1 [97] 1).getD (emptyVM, keyA)).2

/-- A VM with the one-byte string "b" interned (its buffer at address 0). -/
def c9vm : VM := ((copyString emptyVM [98] 1).getD (emptyVM, keyA)).1

/-- A VM with the key "a" bound in the globals and one stack value. -/
def c7vm : VM := { emptyVM with globals := tblA, stack := [Value.number 5] }

/-- The "init" method name (address 5, buffer 50) of the C8 scenario. -/
def c8initStr : ObjString := ⟨5, 4, 50, [105, 110, 105, 116], hashString [105, 110, 105, 116]⟩

/-- A method table mapping "init" to the closure at address 3. -/
def c8methods : Table :=
  ((tableSet initTable c8initStr (Value.obj 3)).getD (false, initTable)).2

/-- A VM about to call the class at address 1, whose method table holds
an `init` closure (address 3, zero arity, function 4). -/
def c8vm : VM :=
  { emptyVM with
    stack := [Value.obj 1]
    initString := some c8initStr
    objects := [(1, HeapData.classObj 2 c8methods),
                (2, HeapData.strObj ⟨2, 1, 60, [67], hashString [67]⟩),
                (3, HeapData.closureObj ⟨4, 0⟩ []),
                (4, HeapData.funcObj 0 none [])]
    nextAddr := 10 }

/-- A VM about to call the class at address 1, whose method table is
empty (no `init`). -/
def c8vmNoInit : VM :=
  { emptyVM with
    stack := [Value.obj 1]
    initString := some c8initStr
    objects := [(1, HeapData.classObj 2 initTable)]
    nextAddr := 10 }

/-! ### Linear-probing lemmas -/

lemma getD_eq_getElem_of_lt (l : List Entry) (i : Nat) (h : i < l.length) :
    l.getD i emptyEntry = l[i] := List.getD_eq_getElem l emptyEntry h

lemma getD_mem (l : List Entry) (i : Nat) (h : i < l.length) :
    l.getD i emptyEntry ∈ l := by
  rw [getD_eq_getElem_of_lt l i h]
  exact List.getElem_mem h

lemma probeIdx_lt (cap start j : Nat) (h : 0 < cap) : probeIdx cap start j < cap :=
  Nat.mod_lt _ h

lemma probeIdx_succ (cap start j : Nat) :
    (probeIdx cap start j + 1) % cap = probeIdx cap start (j + 1) := by
  unfold probeIdx
  rw [Nat.mod_add_mod]
  congr 1

lemma probeIdx_zero (cap start : Nat) (h : start < cap) :
    probeIdx cap start 0 = start := by
  unfold probeIdx
  rw [Nat.add_zero]
  exact Nat.mod_eq_of_lt h

lemma probeIdx_cover (cap start s : Nat) (hc : 0 < cap) (hs : s < cap) :
    ∃ j, j < cap ∧ probeIdx cap start j = s := by
  refine ⟨(cap + s - start % cap) % cap, Nat.mod_lt _ hc, ?_⟩
  unfold probeIdx
  rw [Nat.add_mod_mod]
  have hm : start % cap < cap := Nat.mod_lt _ hc
  rw [← Nat.mod_add_mod]
  have h1 : start % cap + (cap + s - start % cap) = cap + s := by omega
  rw [h1, Nat.add_mod_left]
  exact Nat.mod_eq_of_lt hs

lemma exists_empty_slot (entries : List Entry) (cap : Nat)
    (hlen : entries.length = cap) (hlt : countNonEmpty entries < cap) :
    ∃ s, s < cap ∧ (entries.getD s emptyEntry).isEmptySlot := by
  by_contra h
  push_neg at h
  have hall : countNonEmpty entries = cap := by
    rw [← hlen]
    unfold countNonEmpty
    rw [List.countP_eq_length]
    intro e he
    obtain ⟨i, hi, rfl⟩ := List.mem_iff_getElem.mp he
    simp only [decide_eq_true_eq]
    have hne := h i (by omega)
    rw [getD_eq_getElem_of_lt entries i hi] at hne
    exact hne
  omega

/-- Unfold `slotFindable` at a live bucket. -/
lemma findable_of_slotFindable (entries : List Entry) (cap s : Nat) (k : ObjString)
    (h : slotFindable entries cap s)
    (hk : (entries.getD s emptyEntry).key = some k) :
    Findable entries cap k s := by
  unfold slotFindable at h
  rw [hk] at h
  exact h

/-- Master characterisation of the probe loop of `findEntry`: started `j`
steps along the probe sequence of `key`, having seen no empty bucket and
no match so far, it terminates (within the remaining fuel) on either the
bucket holding `key`, or — when `key` is stored nowhere — on a
`NULL`-keyed bucket (the remembered first tombstone if any, else the
first empty bucket), and that bucket is findable for `key`. -/
lemma findEntryGo_spec (entries : List Entry) (cap : Nat) (key : ObjString)
    (hlen : entries.length = cap)
    (hvalid : ∀ e ∈ entries, e.key = none → e.value = Value.nil ∨ e.value = Value.bool true)
    (hfind : ∀ s, s < cap → slotFindable entries cap s)
    (hempty : ∃ s, s < cap ∧ (entries.getD s emptyEntry).isEmptySlot) :
    ∀ fuel j tomb, j + fuel = cap →
      (∀ j', j' < j →
        ¬ (entries.getD (probeIdx cap (key.hash % cap) j') emptyEntry).isEmptySlot ∧
        (entries.getD (probeIdx cap (key.hash % cap) j') emptyEntry).key ≠ some key) →
      ((tomb = none ∧ ∀ j'', j'' < j →
          ¬ (entries.getD (probeIdx cap (key.hash % cap) j'') emptyEntry).isTombstone) ∨
       ∃ t, tomb = some t ∧
        (entries.getD t emptyEntry).isTombstone ∧
        ∃ j₀, j₀ < j ∧ probeIdx cap (key.hash % cap) j₀ = t) →
      ∃ i, findEntryGo entries cap key fuel (probeIdx cap (key.hash % cap) j) tomb = some i ∧
        i < cap ∧
        ((entries.getD i emptyEntry).key = some key ∨
         ((entries.getD i emptyEntry).key = none ∧
          (∀ e ∈ entries, e.key ≠ some key) ∧
          Findable entries cap key i ∧
          (∀ t', (entries.getD t' emptyEntry).isTombstone →
            Findable entries cap key t' →
            (entries.getD i emptyEntry).isTombstone))) := by
  intro fuel
  induction fuel with
  | zero =>
    intro j tomb hj hvis _
    exfalso
    obtain ⟨s, hs, hsE⟩ := hempty
    obtain ⟨j', hj', hPj'⟩ := probeIdx_cover cap (key.hash % cap) s (by omega) hs
    have hvj := (hvis j' (by omega)).1
    rw [hPj'] at hvj
    exact hvj hsE
  | succ fuel ih =>
    intro j tomb hj hvis htomb
    have hc : 0 < cap := by omega
    have hjc : j < cap := by omega
    have hidxlt : probeIdx cap (key.hash % cap) j < cap := probeIdx_lt cap _ j hc
    cases hk : (entries.getD (probeIdx cap (key.hash % cap) j) emptyEntry).key with
    | none =>
      by_cases hv : (entries.getD (probeIdx cap (key.hash % cap) j) emptyEntry).value = Value.nil
      · -- empty bucket: the loop stops here, and key is stored nowhere
        have habs : ∀ e ∈ entries, e.key ≠ some key := by
          intro e he hekey
          obtain ⟨s, hslen, rfl⟩ := List.mem_iff_getElem.mp he
          have hscap : s < cap := by omega
          have hgk : (entries.getD s emptyEntry).key = some key := by
            rw [getD_eq_getElem_of_lt entries s hslen]
            exact hekey
          have hsf := findable_of_slotFindable entries cap s key (hfind s hscap) hgk
          unfold Findable at hsf
          obtain ⟨js, hjs, hPs, hNoE⟩ := hsf
          rw [List.mem_range] at hjs
          rcases Nat.lt_trichotomy js j with hlt | heq | hgt
          · have hv2 := (hvis js hlt).2
            rw [hPs] at hv2
            exact hv2 hgk
          · subst heq
            rw [hPs] at hk
            rw [hk] at hgk
            exact Option.noConfusion hgk
          · exact hNoE j (List.mem_range.mpr hgt) ⟨hk, hv⟩
        rcases htomb with ⟨rfl, hnoT⟩ | ⟨t, rfl, htT, j₀, hj₀, hPj₀⟩
        · refine ⟨probeIdx cap (key.hash % cap) j, ?_, hidxlt, Or.inr ⟨hk, habs, ?_, ?_⟩⟩
          · simp only [findEntryGo, hk]
            rw [if_pos hv]
            rfl
          · exact ⟨j, List.mem_range.mpr hjc, rfl,
              fun j' hj' => (hvis j' (List.mem_range.mp hj')).1⟩
          · intro t' ht'T ht'F
            exfalso
            obtain ⟨jt, hjt, hPjt, hNoE⟩ := ht'F
            rw [List.mem_range] at hjt
            rcases Nat.lt_trichotomy jt j with hlt | heq | hgt
            · exact hnoT jt hlt (by rw [hPjt]; exact ht'T)
            · subst heq
              rw [hPjt] at hv
              have hcontra := ht'T.2
              rw [hv] at hcontra
              exact Value.noConfusion hcontra
            · exact hNoE j (List.mem_range.mpr hgt) ⟨hk, hv⟩
        · have htlt : t < cap := by
            rw [← hPj₀]
            exact probeIdx_lt cap _ j₀ hc
          refine ⟨t, ?_, htlt, Or.inr ⟨htT.1, habs, ?_, fun _ _ _ => htT⟩⟩
          · simp only [findEntryGo, hk]
            rw [if_pos hv]
            rfl
          · refine ⟨j₀, List.mem_range.mpr (by omega), hPj₀, fun j' hj' => ?_⟩
            have hj'lt : j' < j₀ := List.mem_range.mp hj'
            exact (hvis j' (by omega)).1
      · -- tombstone bucket: remember it (if first) and continue probing
        have htT : (entries.getD (probeIdx cap (key.hash % cap) j) emptyEntry).isTombstone := by
          have hval := hvalid _ (getD_mem entries _ (by omega)) hk
          rcases hval with h1 | h1
          · exact absurd h1 hv
          · exact ⟨hk, h1⟩
        have hstep : findEntryGo entries cap key (fuel + 1)
            (probeIdx cap (key.hash % cap) j) tomb =
            findEntryGo entries cap key fuel (probeIdx cap (key.hash % cap) (j + 1))
              (some (tomb.getD (probeIdx cap (key.hash % cap) j))) := by
          simp only [findEntryGo, hk]
          rw [if_neg hv, probeIdx_succ]
        rw [hstep]
        refine ih (j + 1) (some (tomb.getD (probeIdx cap (key.hash % cap) j))) (by omega) ?_ ?_
        · intro j' hj'
          rcases Nat.lt_or_ge j' j with h1 | h1
          · exact hvis j' h1
          · have hjj : j' = j := by omega
            subst hjj
            refine ⟨fun hE => hv hE.2, ?_⟩
            rw [hk]
            exact fun hcon => Option.noConfusion hcon
        · rcases htomb with ⟨rfl, _⟩ | ⟨t, rfl, htT', j₀, hj₀, hPj₀⟩
          · refine Or.inr ⟨probeIdx cap (key.hash % cap) j, ?_, htT, j, by omega, rfl⟩
            rw [Option.getD_none]
          · refine Or.inr ⟨t, ?_, htT', j₀, by omega, hPj₀⟩
            rw [Option.getD_some]
    | some k =>
      by_cases hkk : k = key
      · rw [hkk] at hk
        refine ⟨probeIdx cap (key.hash % cap) j, ?_, hidxlt, Or.inl hk⟩
        simp only [findEntryGo, hk]
        exact if_pos trivial
      · have hstep : findEntryGo entries cap key (fuel + 1)
            (probeIdx cap (key.hash % cap) j) tomb =
            findEntryGo entries cap key fuel (probeIdx cap (key.hash % cap) (j + 1)) tomb := by
          simp only [findEntryGo, hk]
          rw [if_neg hkk, probeIdx_succ]
        rw [hstep]
        refine ih (j + 1) tomb (by omega) ?_ ?_
        · intro j' hj'
          rcases Nat.lt_or_ge j' j with h1 | h1
          · exact hvis j' h1
          · have hjj : j' = j := by omega
            subst hjj
            refine ⟨?_, ?_⟩
            · intro hE
              rw [hE.1] at hk
              exact Option.noConfusion hk
            · rw [hk]
              simp only [ne_eq, Option.some.injEq]
              exact hkk
        · rcases htomb with ⟨rfl, hnoT⟩ | ⟨t, rfl, htT, j₀, hj₀, hPj₀⟩
          · refine Or.inl ⟨rfl, ?_⟩
            intro j'' hj''
            rcases Nat.lt_or_ge j'' j with h1 | h1
            · exact hnoT j'' h1
            · have hjj : j'' = j := by omega
              subst hjj
              intro hTcon
              rw [hTcon.1] at hk
              exact Option.noConfusion hk
          · exact Or.inr ⟨t, rfl, htT, j₀, by omega, hPj₀⟩

/-- Lemma: `findEntry` on a well-formed, non-trivial table terminates and
returns either the bucket holding `key` or, when `key` is absent, a
`NULL`-keyed bucket findable for `key`. -/
lemma findEntry_spec (t : Table) (key : ObjString) (hwf : t.WF) (hc : 0 < t.capacity) :
    ∃ i, findEntry t.entries t.capacity key = some i ∧ i < t.capacity ∧
      ((t.entries.getD i emptyEntry).key = some key ∨
       ((t.entries.getD i emptyEntry).key = none ∧
        (∀ e ∈ t.entries, e.key ≠ some key) ∧
        Findable t.entries t.capacity key i ∧
        (∀ t', (t.entries.getD t' emptyEntry).isTombstone →
          Findable t.entries t.capacity key t' →
          (t.entries.getD i emptyEntry).isTombstone))) := by
  obtain ⟨hlen, hcount, hload, hvalid, hdist, hfind⟩ := hwf
  have hlt : countNonEmpty t.entries < t.capacity := by omega
  have hempty' : ∃ s, s < t.capacity ∧ (t.entries.getD s emptyEntry).isEmptySlot :=
    exists_empty_slot t.entries t.capacity hlen hlt
  have hmain := findEntryGo_spec t.entries t.capacity key hlen hvalid
    (fun s hs => hfind s (List.mem_range.mpr hs)) hempty' t.capacity 0 none
    (by omega) (fun j' hj' => absurd hj' (Nat.not_lt_zero j'))
    (Or.inl ⟨rfl, fun j'' hj'' => absurd hj'' (Nat.not_lt_zero j'')⟩)
  unfold findEntry
  rwa [probeIdx_zero t.capacity (key.hash % t.capacity) (Nat.mod_lt _ hc)] at hmain

/-- When `key` is stored at bucket `s` of a well-formed table,
`findEntry` returns exactly that bucket. -/
lemma findEntry_found (t : Table) (key : ObjString) (hwf : t.WF) (hc : 0 < t.capacity)
    (s : Nat) (hs : s < t.capacity) (hk : (t.entries.getD s emptyEntry).key = some key) :
    findEntry t.entries t.capacity key = some s := by
  obtain ⟨i, hfe, hilt, hcase⟩ := findEntry_spec t key hwf hc
  obtain ⟨hlen, hcount, hload, hvalid, hdist, hfind⟩ := hwf
  rcases hcase with hkey | ⟨_, habs, _, _⟩
  · by_cases his : i = s
    · rwa [his] at hfe
    · exfalso
      have hne := hdist i (List.mem_range.mpr hilt) s (List.mem_range.mpr hs) his
        (by rw [hkey]; rfl)
      rw [hkey, hk] at hne
      exact hne rfl
  · exact absurd hk (habs _ (getD_mem t.entries s (by omega)))

/-- When `key` is stored nowhere in a well-formed table, `findEntry`
returns a `NULL`-keyed bucket findable for `key`. -/
lemma findEntry_absent (t : Table) (key : ObjString) (hwf : t.WF) (hc : 0 < t.capacity)
    (habs : ∀ e ∈ t.entries, e.key ≠ some key) :
    ∃ i, findEntry t.entries t.capacity key = some i ∧ i < t.capacity ∧
      (t.entries.getD i emptyEntry).key = none ∧
      Findable t.entries t.capacity key i ∧
      (∀ t', (t.entries.getD t' emptyEntry).isTombstone →
        Findable t.entries t.capacity key t' →
        (t.entries.getD i emptyEntry).isTombstone) := by
  obtain ⟨i, hfe, hilt, hcase⟩ := findEntry_spec t key hwf hc
  rcases hcase with hkey | ⟨hnone, _, hfnd, hprio⟩
  · exfalso
    have hlen : t.entries.length = t.capacity := hwf.1
    exact habs _ (getD_mem t.entries i (by omega)) hkey
  · exact ⟨i, hfe, hilt, hnone, hfnd, hprio⟩

/-! ### The model-level lookup function -/

lemma hasKey_iff_slot (t : Table) (k : ObjString) (hlen : t.entries.length = t.capacity) :
    t.hasKey k ↔ ∃ s, s < t.capacity ∧ (t.entries.getD s emptyEntry).key = some k := by
  constructor
  · rintro ⟨e, he, hek⟩
    obtain ⟨i, hi, rfl⟩ := List.mem_iff_getElem.mp he
    exact ⟨i, by omega, by rw [getD_eq_getElem_of_lt _ _ hi]; exact hek⟩
  · rintro ⟨s, hs, hk⟩
    exact ⟨_, getD_mem t.entries s (by omega), hk⟩

lemma lookup_eq_of_slot (t : Table) (k : ObjString) (s : Nat)
    (hlen : t.entries.length = t.capacity)
    (hdist : ∀ i ∈ List.range t.capacity, ∀ j ∈ List.range t.capacity, i ≠ j →
      (t.entries.getD i emptyEntry).key.isSome = true →
      (t.entries.getD i emptyEntry).key ≠ (t.entries.getD j emptyEntry).key)
    (hs : s < t.capacity) (hk : (t.entries.getD s emptyEntry).key = some k) :
    t.lookup k = some (t.entries.getD s emptyEntry).value := by
  unfold Table.lookup
  have hmem : t.entries.getD s emptyEntry ∈ t.entries := getD_mem _ _ (by omega)
  have hsome : (t.entries.find? (fun e => decide (e.key = some k))).isSome := by
    rw [List.find?_isSome]
    refine ⟨_, hmem, ?_⟩
    simp only [decide_eq_true_eq]
    exact hk
  obtain ⟨a, ha⟩ := Option.isSome_iff_exists.mp hsome
  have hamem := List.mem_of_find?_eq_some ha
  have hap := List.find?_some ha
  simp only [decide_eq_true_eq] at hap
  obtain ⟨i, hi, hie⟩ := List.mem_iff_getElem.mp hamem
  have hik : (t.entries.getD i emptyEntry).key = some k := by
    rw [getD_eq_getElem_of_lt _ _ hi, hie]
    exact hap
  have his : i = s := by
    by_contra hne
    exact hdist i (List.mem_range.mpr (by omega)) s (List.mem_range.mpr hs) hne
      (by rw [hik]; rfl) (by rw [hik, hk])
  subst his
  rw [ha]
  simp only [Option.map_some']
  congr 1
  rw [← hie, ← getD_eq_getElem_of_lt _ _ hi]

lemma lookup_eq_none_of_absent (t : Table) (k : ObjString)
    (habs : ∀ e ∈ t.entries, e.key ≠ some k) :
    t.lookup k = none := by
  unfold Table.lookup
  rw [List.find?_eq_none.mpr ?_]
  · rfl
  · intro x hx
    simp only [decide_eq_true_eq]
    exact habs x hx

lemma absent_of_count_zero (t : Table) (hcount : t.count = countNonEmpty t.entries)
    (h0 : t.count = 0) (k : ObjString) : ∀ e ∈ t.entries, e.key ≠ some k := by
  intro e he hek
  rw [h0] at hcount
  have hall := (List.countP_eq_zero).mp hcount.symm e he
  simp only [decide_eq_true_eq, not_not] at hall
  rw [hall.1] at hek
  exact Option.noConfusion hek

/-! ### Effects of writing one bucket -/

lemma getD_set_self (l : List Entry) (i : Nat) (a : Entry) (h : i < l.length) :
    (l.set i a).getD i emptyEntry = a := by
  rw [getD_eq_getElem_of_lt _ _ (by simpa using h)]
  exact List.getElem_set_self (by simpa using h)

lemma getD_set_ne (l : List Entry) (i j : Nat) (a : Entry) (h : i ≠ j) :
    (l.set i a).getD j emptyEntry = l.getD j emptyEntry := by
  by_cases hj : j < l.length
  · rw [getD_eq_getElem_of_lt _ _ (by simpa using hj), getD_eq_getElem_of_lt _ _ hj]
    exact List.getElem_set_ne h _
  · rw [List.getD_eq_default _ _ (by simpa using Nat.le_of_not_lt hj),
      List.getD_eq_default _ _ (Nat.le_of_not_lt hj)]

lemma countNonEmpty_set_of_empty (l : List Entry) (i : Nat) (a : Entry)
    (h : i < l.length) (hE : (l.getD i emptyEntry).isEmptySlot) (ha : ¬ a.isEmptySlot) :
    countNonEmpty (l.set i a) = countNonEmpty l + 1 := by
  unfold countNonEmpty
  rw [List.countP_set _ _ _ _ h]
  rw [getD_eq_getElem_of_lt _ _ h] at hE
  simp [hE, ha]

lemma countNonEmpty_set_of_nonEmpty (l : List Entry) (i : Nat) (a : Entry)
    (h : i < l.length) (hE : ¬ (l.getD i emptyEntry).isEmptySlot) (ha : ¬ a.isEmptySlot) :
    countNonEmpty (l.set i a) = countNonEmpty l := by
  unfold countNonEmpty
  rw [List.countP_set _ _ _ _ h]
  rw [getD_eq_getElem_of_lt _ _ h] at hE
  have h1 : 0 < l.countP (fun e => decide ¬ e.isEmptySlot) := by
    rw [List.countP_pos_iff]
    exact ⟨l[i], List.getElem_mem h, by simpa using hE⟩
  simp only [hE, ha]
  simp only [not_false_eq_true, decide_true_eq_true, if_true]
  omega

lemma countLive_set_of_dead (l : List Entry) (i : Nat) (a : Entry)
    (h : i < l.length) (hD : (l.getD i emptyEntry).key = none) (ha : a.key.isSome = true) :
    countLive (l.set i a) = countLive l + 1 := by
  unfold countLive
  rw [List.countP_set _ _ _ _ h]
  rw [getD_eq_getElem_of_lt _ _ h] at hD
  simp [hD, ha]

lemma countLive_set_of_live (l : List Entry) (i : Nat) (a : Entry)
    (h : i < l.length) (hD : (l.getD i emptyEntry).key.isSome = true) (ha : a.key.isSome = true) :
    countLive (l.set i a) = countLive l := by
  unfold countLive
  rw [List.countP_set _ _ _ _ h]
  rw [getD_eq_getElem_of_lt _ _ h] at hD
  have h1 : 0 < l.countP (fun e => e.key.isSome) := by
    rw [List.countP_pos_iff]
    exact ⟨l[i], List.getElem_mem h, hD⟩
  simp only [hD, ha, if_true]
  omega

lemma countLive_cons (e : Entry) (l : List Entry) :
    countLive (e :: l) = countLive l + (if e.key.isSome = true then 1 else 0) := by
  unfold countLive
  rw [List.countP_cons]

/-- Overwriting a bucket with a live entry preserves findability of any
key (findability only constrains truly empty buckets, and the write
removes one). -/
lemma findable_set_live (es : List Entry) (cap i : Nat) (a : Entry)
    (hi : i < es.length) (ha : ¬ a.isEmptySlot) (k : ObjString) (s : Nat)
    (hf : Findable es cap k s) : Findable (es.set i a) cap k s := by
  obtain ⟨j, hj, hP, hNoE⟩ := hf
  refine ⟨j, hj, hP, fun j' hj' => ?_⟩
  by_cases hcase : probeIdx cap (k.hash % cap) j' = i
  · rw [hcase, getD_set_self es i a hi]
    exact ha
  · rw [getD_set_ne es i _ a (fun hcon => hcase hcon.symm)]
    exact hNoE j' hj'

lemma slotFindable_intro (entries : List Entry) (cap s : Nat)
    (h : ∀ k, (entries.getD s emptyEntry).key = some k → Findable entries cap k s) :
    slotFindable entries cap s := by
  unfold slotFindable
  cases hk : (entries.getD s emptyEntry).key with
  | none => trivial
  | some k => exact h k hk

/-- Inserting `(k, v)` into an empty bucket adds exactly that pair to
the stored associations. -/
lemma holds_set_of_empty (cnt cap cnt' : Nat) (es : List Entry) (i : Nat)
    (hlen : es.length = cap) (hi : i < cap)
    (hE : (es.getD i emptyEntry).key = none)
    (k : ObjString) (v : Value) (k' : ObjString) (v' : Value) :
    Table.holds ⟨cnt', cap, es.set i ⟨some k, v⟩⟩ k' v' ↔
      (Table.holds ⟨cnt, cap, es⟩ k' v' ∨ (k' = k ∧ v' = v)) := by
  unfold Table.holds
  constructor
  · rintro ⟨s, hs, hsv⟩
    by_cases hsi : s = i
    · subst hsi
      rw [getD_set_self es s _ (by omega)] at hsv
      simp only [Entry.mk.injEq, Option.some.injEq] at hsv
      exact Or.inr ⟨hsv.1.symm, hsv.2.symm⟩
    · rw [getD_set_ne es i s _ (fun hcon => hsi hcon.symm)] at hsv
      exact Or.inl ⟨s, hs, hsv⟩
  · rintro (⟨s, hs, hsv⟩ | ⟨rfl, rfl⟩)
    · by_cases hsi : s = i
      · subst hsi
        rw [hsv] at hE
        simp at hE
      · exact ⟨s, hs, by
          rw [getD_set_ne es i s _ (fun hcon => hsi hcon.symm)]
          exact hsv⟩
    · exact ⟨i, hi, getD_set_self es i _ (by omega)⟩

/-! ### The replay loop of adjustCapacity -/

/-- Invariant-carrying induction over the replay loop of
`adjustCapacity`: folding live, mutually distinct entries whose keys are
absent from a well-formed tombstone-free accumulator array inserts each
of them into a truly empty bucket, counting every one. -/
lemma replay_fold (cap : Nat) (hcap : 0 < cap) :
    ∀ (l es : List Entry) (cnt : Nat),
      Table.WF ⟨cnt, cap, es⟩ →
      NoTombstones es →
      cnt = countLive es →
      4 * (cnt + countLive l) ≤ 3 * cap →
      List.Pairwise (fun e1 e2 => e1.key.isSome = true → e1.key ≠ e2.key) l →
      (∀ e ∈ l, e.key.isSome = true → ∀ e' ∈ es, e.key ≠ e'.key) →
      ∃ es' cnt',
        List.foldl (replayStep cap) (some (es, cnt)) l = some (es', cnt') ∧
        Table.WF ⟨cnt', cap, es'⟩ ∧
        NoTombstones es' ∧
        cnt' = countLive es' ∧
        cnt' = cnt + countLive l ∧
        (∀ k v, Table.holds ⟨cnt', cap, es'⟩ k v ↔
          (Table.holds ⟨cnt, cap, es⟩ k v ∨ ∃ e ∈ l, e.key = some k ∧ e.value = v)) := by
  intro l
  induction l with
  | nil =>
    intro es cnt hwf hnt hcl hload hpw hdisj
    refine ⟨es, cnt, rfl, hwf, hnt, hcl, by simp [countLive], ?_⟩
    intro k v
    simp
  | cons e rest ih =>
    intro es cnt hwf hnt hcl hload hpw hdisj
    rw [List.foldl_cons]
    cases hek : e.key with
    | none =>
      have hstep : replayStep cap (some (es, cnt)) e = some (es, cnt) := by
        unfold replayStep
        rw [hek]
      rw [hstep]
      have hcl' : countLive (e :: rest) = countLive rest := by
        rw [countLive_cons, hek]
        simp
      obtain ⟨es', cnt', hfold, hwf', hnt', hclE, hcnt, hholds⟩ :=
        ih es cnt hwf hnt hcl (by rw [hcl'] at hload; exact hload)
          (List.Pairwise.of_cons hpw) (fun e' he' => hdisj e' (List.mem_cons_of_mem e he'))
      refine ⟨es', cnt', hfold, hwf', hnt', hclE, by rw [hcl']; exact hcnt, ?_⟩
      intro k v
      rw [hholds k v]
      constructor
      · rintro (h | ⟨e', he', hk⟩)
        · exact Or.inl h
        · exact Or.inr ⟨e', List.mem_cons_of_mem e he', hk⟩
      · rintro (h | ⟨e', he', hk, hv⟩)
        · exact Or.inl h
        · rcases List.mem_cons.mp he' with rfl | hmem
          · rw [hek] at hk
            exact Option.noConfusion hk
          · exact Or.inr ⟨e', hmem, hk, hv⟩
    | some k =>
      have habs : ∀ e' ∈ es, e'.key ≠ some k := by
        intro e' he' hcon
        have h1 := hdisj e (List.mem_cons_self e rest) (by rw [hek]; rfl) e' he'
        rw [hek, hcon] at h1
        exact h1 rfl
      obtain ⟨i, hfe0, hi0, hnone0, hfnd0, _⟩ :=
        findEntry_absent ⟨cnt, cap, es⟩ k hwf hcap habs
      have hfe : findEntry es cap k = some i := hfe0
      have hi : i < cap := hi0
      have hnone : (es.getD i emptyEntry).key = none := hnone0
      have hfnd : Findable es cap k i := hfnd0
      have hlen : es.length = cap := hwf.1
      have hilen : i < es.length := by omega
      have hEmpty : (es.getD i emptyEntry).isEmptySlot :=
        ⟨hnone, hnt _ (getD_mem es i hilen) hnone⟩
      have hstep : replayStep cap (some (es, cnt)) e =
          some (es.set i ⟨some k, e.value⟩, cnt + 1) := by
        unfold replayStep
        rw [hek]
        show (match findEntry es cap k with
          | none => none
          | some j => some (es.set j ⟨some k, e.value⟩, cnt + 1)) =
          some (es.set i ⟨some k, e.value⟩, cnt + 1)
        rw [hfe]
      rw [hstep]
      have hnotE : ¬ (⟨some k, e.value⟩ : Entry).isEmptySlot := by
        intro hcon
        exact Option.noConfusion hcon.1
      have hconsLive : countLive (e :: rest) = countLive rest + 1 := by
        rw [countLive_cons, hek]
        simp
      obtain ⟨hlen0, hcount0, hload0, hvalid0, hdist0, hfind0⟩ := hwf
      have hcount1 : cnt = countNonEmpty es := hcount0
      have hload1 : 4 * cnt ≤ 3 * cap := hload0
      have hvalid1 : ∀ e' ∈ es, e'.key = none →
          e'.value = Value.nil ∨ e'.value = Value.bool true := hvalid0
      have hdist1 : ∀ i1 ∈ List.range cap, ∀ i2 ∈ List.range cap, i1 ≠ i2 →
          (es.getD i1 emptyEntry).key.isSome = true →
          (es.getD i1 emptyEntry).key ≠ (es.getD i2 emptyEntry).key := hdist0
      have hfind1 : ∀ s ∈ List.range cap, slotFindable es cap s := hfind0
      have hwfSet : Table.WF ⟨cnt + 1, cap, es.set i ⟨some k, e.value⟩⟩ := by
        refine ⟨by simpa using hlen, ?_, ?_, ?_, ?_, ?_⟩
        · show cnt + 1 = countNonEmpty (es.set i ⟨some k, e.value⟩)
          rw [countNonEmpty_set_of_empty es i _ hilen hEmpty hnotE]
          omega
        · show 4 * (cnt + 1) ≤ 3 * cap
          omega
        · intro e' he' hk'
          rcases List.mem_or_eq_of_mem_set he' with hmem | rfl
          · exact hvalid1 e' hmem hk'
          · exact Option.noConfusion hk'
        · intro i1 hi1 i2 hi2 hne hsome1
          rw [List.mem_range] at hi1 hi2
          have hi1' : i1 < cap := hi1
          have hi2' : i2 < cap := hi2
          by_cases h1 : i1 = i
          · subst h1
            rw [getD_set_self es i1 _ hilen, getD_set_ne es i1 i2 _ hne]
            intro hcon
            exact habs _ (getD_mem es i2 (by omega)) hcon.symm
          · by_cases h2 : i2 = i
            · subst h2
              rw [getD_set_ne es i2 i1 _ (fun hcon => h1 hcon.symm),
                getD_set_self es i2 _ hilen]
              rw [getD_set_ne es i2 i1 _ (fun hcon => h1 hcon.symm)] at hsome1
              intro hcon
              exact habs _ (getD_mem es i1 (by omega)) hcon
            · rw [getD_set_ne es i i1 _ (fun hcon => h1 hcon.symm),
                getD_set_ne es i i2 _ (fun hcon => h2 hcon.symm)]
              rw [getD_set_ne es i i1 _ (fun hcon => h1 hcon.symm)] at hsome1
              exact hdist1 i1 (List.mem_range.mpr hi1') i2 (List.mem_range.mpr hi2') hne hsome1
        · intro s hs
          rw [List.mem_range] at hs
          have hs' : s < cap := hs
          apply slotFindable_intro
          intro k' hk'
          by_cases hsi : s = i
          · subst hsi
            rw [getD_set_self es s _ hilen] at hk'
            have hkk : k' = k := by
              injection hk' with h
              exact h.symm
            subst hkk
            exact findable_set_live es cap s _ hilen hnotE k' s hfnd
          · rw [getD_set_ne es i s _ (fun hcon => hsi hcon.symm)] at hk'
            have hold := findable_of_slotFindable es cap s k'
              (hfind1 s (List.mem_range.mpr hs')) hk'
            exact findable_set_live es cap i _ hilen hnotE k' s hold
      have hntSet : NoTombstones (es.set i ⟨some k, e.value⟩) := by
        intro e' he' hk'
        rcases List.mem_or_eq_of_mem_set he' with hmem | rfl
        · exact hnt e' hmem hk'
        · exact Option.noConfusion hk'
      have hclSet : cnt + 1 = countLive (es.set i ⟨some k, e.value⟩) := by
        rw [countLive_set_of_dead es i ⟨some k, e.value⟩ hilen hnone rfl]
        omega
      have hdisjSet : ∀ e'' ∈ rest, e''.key.isSome = true →
          ∀ e' ∈ es.set i ⟨some k, e.value⟩, e''.key ≠ e'.key := by
        intro e'' he'' hsm e' he'
        rcases List.mem_or_eq_of_mem_set he' with hmem | rfl
        · exact hdisj e'' (List.mem_cons_of_mem e he'') hsm e' hmem
        · have hrel := (List.pairwise_cons.mp hpw).1 e'' he'' (by rw [hek]; rfl)
          rw [hek] at hrel
          intro hcon
          exact hrel hcon.symm
      obtain ⟨es', cnt', hfold, hwf', hnt', hclE, hcnt, hholds⟩ :=
        ih (es.set i ⟨some k, e.value⟩) (cnt + 1) hwfSet hntSet hclSet (by omega)
          (List.Pairwise.of_cons hpw) hdisjSet
      refine ⟨es', cnt', hfold, hwf', hnt', hclE, by omega, ?_⟩
      intro k' v'
      rw [hholds k' v',
        holds_set_of_empty cnt cap (cnt + 1) es i hlen (by omega) hnone k e.value k' v']
      constructor
      · rintro ((h | ⟨rfl, rfl⟩) | ⟨e'', he'', hk, hv⟩)
        · exact Or.inl h
        · exact Or.inr ⟨e, List.mem_cons_self e rest, hek, rfl⟩
        · exact Or.inr ⟨e'', List.mem_cons_of_mem e he'', hk, hv⟩
      · rintro (h | ⟨e'', he'', hk, hv⟩)
        · exact Or.inl (Or.inl h)
        · rcases List.mem_cons.mp he'' with rfl | hmem
          · rw [hek] at hk
            injection hk with hkk
            exact Or.inl (Or.inr ⟨hkk.symm, hv.symm⟩)
          · exact Or.inr ⟨e'', hmem, hk, hv⟩

lemma holds_iff_mem (t : Table) (hlen : t.entries.length = t.capacity) (k : ObjString)
    (v : Value) :
    t.holds k v ↔ ∃ e ∈ t.entries, e.key = some k ∧ e.value = v := by
  unfold Table.holds
  constructor
  · rintro ⟨s, hs, hsv⟩
    refine ⟨_, getD_mem t.entries s (by omega), ?_⟩
    rw [hsv]
    exact ⟨rfl, rfl⟩
  · rintro ⟨e, he, hk, hv⟩
    obtain ⟨s, hslen, rfl⟩ := List.mem_iff_getElem.mp he
    refine ⟨s, by omega, ?_⟩
    rw [getD_eq_getElem_of_lt _ _ hslen, ← hk, ← hv]

lemma countNonEmpty_replicate (n : Nat) :
    countNonEmpty (List.replicate n emptyEntry) = 0 := by
  unfold countNonEmpty
  rw [List.countP_eq_zero]
  intro a ha
  rw [List.eq_of_mem_replicate ha]
  simp [emptyEntry, Entry.isEmptySlot]

lemma countLive_replicate (n : Nat) :
    countLive (List.replicate n emptyEntry) = 0 := by
  unfold countLive
  rw [List.countP_eq_zero]
  intro a ha
  rw [List.eq_of_mem_replicate ha]
  simp [emptyEntry]

lemma getD_replicate_emptyEntry (n s : Nat) :
    (List.replicate n emptyEntry).getD s emptyEntry = emptyEntry := by
  by_cases hs : s < n
  · rw [getD_eq_getElem_of_lt _ _ (by simpa using hs)]
    exact List.getElem_replicate emptyEntry (by simpa using hs)
  · exact List.getD_eq_default _ _ (by simpa using Nat.le_of_not_lt hs)

/-- Full behaviour of `adjustCapacity` on a well-formed table when the
target capacity leaves room: the replayed array is well formed, carries
no tombstones, stores exactly the live associations of the old table,
and its `count` is the number of live entries of the old table. -/
lemma adjustCapacity_spec (t : Table) (newcap : Nat) (hwf : t.WF)
    (hcap : 0 < newcap) (hload : 4 * countLive t.entries ≤ 3 * newcap) :
    ∃ t', adjustCapacity t newcap = some t' ∧
      t'.capacity = newcap ∧
      Table.WF t' ∧
      NoTombstones t'.entries ∧
      t'.count = countLive t.entries ∧
      (∀ k v, t'.holds k v ↔ t.holds k v) := by
  obtain ⟨hlen, hcount, hload0, hvalid, hdist, hfind⟩ := hwf
  have hwfInit : Table.WF ⟨0, newcap, List.replicate newcap emptyEntry⟩ := by
    refine ⟨by simp, ?_, by simp, ?_, ?_, ?_⟩
    · show 0 = countNonEmpty (List.replicate newcap emptyEntry)
      rw [countNonEmpty_replicate]
    · intro e he _
      rw [List.eq_of_mem_replicate he]
      exact Or.inl rfl
    · intro i1 _ i2 _ _ hsome
      rw [show ((List.replicate newcap emptyEntry).getD i1 emptyEntry) = emptyEntry from
        getD_replicate_emptyEntry newcap i1] at hsome
      exact absurd hsome (by simp [emptyEntry])
    · intro s _
      apply slotFindable_intro
      intro k hk
      rw [getD_replicate_emptyEntry newcap s] at hk
      exact absurd hk (by simp [emptyEntry])
  have hntInit : NoTombstones (List.replicate newcap emptyEntry) := by
    intro e he _
    rw [List.eq_of_mem_replicate he]
    rfl
  have hpw : List.Pairwise (fun e1 e2 => e1.key.isSome = true → e1.key ≠ e2.key) t.entries := by
    rw [List.pairwise_iff_getElem]
    intro a b ha hb hab hsome hcon
    have hga : (t.entries.getD a emptyEntry) = t.entries[a] := getD_eq_getElem_of_lt _ _ ha
    have hgb : (t.entries.getD b emptyEntry) = t.entries[b] := getD_eq_getElem_of_lt _ _ hb
    have := hdist a (List.mem_range.mpr (by omega)) b (List.mem_range.mpr (by omega))
      (by omega) (by rw [hga]; exact hsome)
    rw [hga, hgb] at this
    exact this hcon
  have hdisjInit : ∀ e ∈ t.entries, e.key.isSome = true →
      ∀ e' ∈ List.replicate newcap emptyEntry, e.key ≠ e'.key := by
    intro e _ hsome e' he' hcon
    rw [List.eq_of_mem_replicate he'] at hcon
    rw [hcon] at hsome
    exact Bool.noConfusion hsome
  obtain ⟨es', cnt', hfold, hwf', hnt', hclE, hcnt, hholds⟩ :=
    replay_fold newcap hcap t.entries (List.replicate newcap emptyEntry) 0
      hwfInit hntInit (countLive_replicate newcap).symm (by omega) hpw hdisjInit
  refine ⟨⟨cnt', newcap, es'⟩, ?_, rfl, hwf', hnt', by simpa using hcnt, ?_⟩
  · unfold adjustCapacity
    rw [hfold]
    rfl
  · intro k v
    have h1 := hholds k v
    have h2 : ¬ Table.holds ⟨0, newcap, List.replicate newcap emptyEntry⟩ k v := by
      rintro ⟨s, _, hsv⟩
      rw [show ((List.replicate newcap emptyEntry).getD s emptyEntry) = emptyEntry from
        getD_replicate_emptyEntry newcap s] at hsv
      exact Option.noConfusion (congrArg Entry.key hsv)
    rw [h1, holds_iff_mem t hlen k v]
    constructor
    · rintro (h | h)
      · exact absurd h h2
      · exact h
    · intro h
      exact Or.inr h

lemma hasKey_iff_exists_holds (t : Table) (hlen : t.entries.length = t.capacity)
    (k : ObjString) : t.hasKey k ↔ ∃ v, t.holds k v := by
  rw [hasKey_iff_slot t k hlen]
  constructor
  · rintro ⟨s, hs, hk⟩
    refine ⟨(t.entries.getD s emptyEntry).value, s, hs, ?_⟩
    rw [← hk]
  · rintro ⟨v, s, hs, hsv⟩
    exact ⟨s, hs, by rw [hsv]⟩

lemma holds_value_unique (t : Table) (hwf : t.WF) (k : ObjString) (v v' : Value)
    (h1 : t.holds k v) (h2 : t.holds k v') : v = v' := by
  obtain ⟨hlen, _, _, _, hdist, _⟩ := hwf
  obtain ⟨s1, hs1, he1⟩ := h1
  obtain ⟨s2, hs2, he2⟩ := h2
  by_cases hss : s1 = s2
  · subst hss
    rw [he1] at he2
    simpa using he2
  · exfalso
    have := hdist s1 (List.mem_range.mpr hs1) s2 (List.mem_range.mpr hs2) hss
      (by rw [he1]; rfl)
    rw [he1, he2] at this
    exact this rfl

lemma lookup_iff_holds (t : Table) (hwf : t.WF) (k : ObjString) (v : Value) :
    t.lookup k = some v ↔ t.holds k v := by
  obtain ⟨hlen, _, _, _, hdist, _⟩ := hwf
  constructor
  · intro h
    unfold Table.lookup at h
    obtain ⟨a, ha, hav⟩ : ∃ a, t.entries.find? (fun e => decide (e.key = some k)) = some a ∧
        a.value = v := by
      cases hfa : t.entries.find? (fun e => decide (e.key = some k)) with
      | none => rw [hfa] at h; exact Option.noConfusion h
      | some a =>
        rw [hfa] at h
        simp only [Option.map_some'] at h
        exact ⟨a, rfl, by injection h⟩
    have hamem := List.mem_of_find?_eq_some ha
    have hap := List.find?_some ha
    simp only [decide_eq_true_eq] at hap
    obtain ⟨s, hs, rfl⟩ := List.mem_iff_getElem.mp hamem
    refine ⟨s, by omega, ?_⟩
    rw [getD_eq_getElem_of_lt _ _ hs, ← hap, ← hav]
  · rintro ⟨s, hs, hsv⟩
    rw [lookup_eq_of_slot t k s hlen hdist hs (by rw [hsv])]
    rw [hsv]

lemma countNonEmpty_pos_of_hasKey (t : Table) (k : ObjString)
    (hhas : t.hasKey k) : 0 < countNonEmpty t.entries := by
  obtain ⟨e, he, hek⟩ := hhas
  unfold countNonEmpty
  rw [List.countP_pos_iff]
  refine ⟨e, he, ?_⟩
  simp only [decide_eq_true_eq]
  intro hcon
  rw [hcon.1] at hek
  exact Option.noConfusion hek

lemma GROW_CAPACITY_pos (cap : Nat) : 0 < GROW_CAPACITY cap := by
  unfold GROW_CAPACITY
  split <;> omega

lemma grow_capacity_load (count cap live : Nat) (hload : 4 * count ≤ 3 * cap)
    (hlive : live ≤ count) : 4 * (live + 1) ≤ 3 * GROW_CAPACITY cap := by
  unfold GROW_CAPACITY
  split <;> omega

lemma countLive_le_countNonEmpty (es : List Entry) :
    countLive es ≤ countNonEmpty es := by
  unfold countLive countNonEmpty
  apply List.countP_mono_left
  intro e _ he
  simp only [decide_eq_true_eq]
  intro hcon
  rw [hcon.1] at he
  exact Bool.noConfusion he

/-- Rewriting a bucket whose key is not `k'` with an entry whose key is
not `k'` does not change whether `(k', v')` is stored. -/
lemma holds_set_ne (cnt cap cnt' : Nat) (es : List Entry) (i : Nat) (a : Entry)
    (k' : ObjString) (v' : Value) (hlen : es.length = cap) (hi : i < cap)
    (hbucket : (es.getD i emptyEntry).key ≠ some k')
    (hak : a.key ≠ some k') :
    Table.holds ⟨cnt', cap, es.set i a⟩ k' v' ↔ Table.holds ⟨cnt, cap, es⟩ k' v' := by
  unfold Table.holds
  constructor
  · rintro ⟨s, hs, hsv⟩
    by_cases hsi : s = i
    · subst hsi
      rw [getD_set_self es s a (by omega)] at hsv
      exact absurd (by rw [hsv]) hak
    · rw [getD_set_ne es i s a (fun h => hsi h.symm)] at hsv
      exact ⟨s, hs, hsv⟩
  · rintro ⟨s, hs, hsv⟩
    by_cases hsi : s = i
    · subst hsi
      exact absurd (by rw [hsv]) hbucket
    · refine ⟨s, hs, ?_⟩
      rw [getD_set_ne es i s a (fun h => hsi h.symm)]
      exact hsv

/-- The `count` update of `tableSet` increments exactly on a truly
empty bucket (`isNewKey && IS_NIL(entry->value)`). -/
lemma count_if_eq (e : Entry) (c : Nat) :
    (if e.key.isNone = true ∧ e.value = Value.nil then c + 1 else c) =
    (if e.isEmptySlot then c + 1 else c) := by
  apply if_congr _ rfl rfl
  unfold Entry.isEmptySlot
  rw [Option.isNone_iff_eq_none]

/-- The write phase of `tableSet` on a well-formed table with room for
one more bucket: characterises the probed bucket, the `isNewKey`
result, and well-formedness of the written table. -/
lemma tableSet_insert (t : Table) (key : ObjString) (v : Value) (hwf : t.WF)
    (hc : 0 < t.capacity) (hroom : 4 * (t.count + 1) ≤ 3 * t.capacity) :
    ∃ i, findEntry t.entries t.capacity key = some i ∧ i < t.capacity ∧
      ((t.entries.getD i emptyEntry).key.isNone = true ↔ ¬ t.hasKey key) ∧
      Table.WF ⟨(if (t.entries.getD i emptyEntry).isEmptySlot then t.count + 1 else t.count),
        t.capacity, t.entries.set i ⟨some key, v⟩⟩ ∧
      ((t.entries.getD i emptyEntry).key = some key ∨
       ((t.entries.getD i emptyEntry).key = none ∧
        (∀ ts, (t.entries.getD ts emptyEntry).isTombstone →
          Findable t.entries t.capacity key ts →
          (t.entries.getD i emptyEntry).isTombstone))) := by
  obtain ⟨i, hfe, hi, hcase⟩ := findEntry_spec t key hwf hc
  obtain ⟨hlen, hcount, hload, hvalid, hdist, hfind⟩ := hwf
  have hilen : i < t.entries.length := by omega
  have hnotE : ¬ (⟨some key, v⟩ : Entry).isEmptySlot := fun hcon => Option.noConfusion hcon.1
  refine ⟨i, hfe, hi, ?_, ?_, ?_⟩
  · rcases hcase with hkey | ⟨hnone, habs, _, _⟩
    · rw [hkey]
      constructor
      · intro hcon
        simp at hcon
      · intro hcon
        exact absurd ((hasKey_iff_slot t key hlen).mpr ⟨i, hi, hkey⟩) hcon
    · rw [hnone]
      constructor
      · rintro _ ⟨e, he, hek⟩
        exact habs e he hek
      · intro _
        rfl
  · refine ⟨by simpa using hlen, ?_, ?_, ?_, ?_, ?_⟩
    · show _ = countNonEmpty (t.entries.set i ⟨some key, v⟩)
      by_cases hE : (t.entries.getD i emptyEntry).isEmptySlot
      · rw [if_pos hE, countNonEmpty_set_of_empty t.entries i _ hilen hE hnotE, hcount]
      · rw [if_neg hE, countNonEmpty_set_of_nonEmpty t.entries i _ hilen hE hnotE, hcount]
    · show 4 * (if (t.entries.getD i emptyEntry).isEmptySlot
          then t.count + 1 else t.count) ≤ 3 * t.capacity
      by_cases hE : (t.entries.getD i emptyEntry).isEmptySlot
      · rw [if_pos hE]
        omega
      · rw [if_neg hE]
        omega
    · intro e' he' hk'
      rcases List.mem_or_eq_of_mem_set he' with hmem | rfl
      · exact hvalid e' hmem hk'
      · exact Option.noConfusion hk'
    · intro i1 hi1 i2 hi2 hne hsome1
      rw [List.mem_range] at hi1 hi2
      have hi1' : i1 < t.capacity := hi1
      have hi2' : i2 < t.capacity := hi2
      by_cases h1 : i1 = i
      · subst h1
        rw [getD_set_self t.entries i1 _ hilen, getD_set_ne t.entries i1 i2 _ hne]
        intro hcon
        rcases hcase with hkey | ⟨_, habs, _, _⟩
        · have hd := hdist i1 (List.mem_range.mpr hi1') i2 (List.mem_range.mpr hi2') hne
            (by rw [hkey]; rfl)
          rw [hkey] at hd
          exact hd hcon
        · exact habs _ (getD_mem t.entries i2 (by omega)) hcon.symm
      · by_cases h2 : i2 = i
        · subst h2
          rw [getD_set_ne t.entries i2 i1 _ (fun h => h1 h.symm),
            getD_set_self t.entries i2 _ hilen]
          rw [getD_set_ne t.entries i2 i1 _ (fun h => h1 h.symm)] at hsome1
          intro hcon
          rcases hcase with hkey | ⟨_, habs, _, _⟩
          · have hd := hdist i1 (List.mem_range.mpr hi1') i2 (List.mem_range.mpr hi2')
              hne hsome1
            rw [hkey] at hd
            exact hd hcon
          · exact habs _ (getD_mem t.entries i1 (by omega)) hcon
        · rw [getD_set_ne t.entries i i1 _ (fun h => h1 h.symm),
            getD_set_ne t.entries i i2 _ (fun h => h2 h.symm)]
          rw [getD_set_ne t.entries i i1 _ (fun h => h1 h.symm)] at hsome1
          exact hdist i1 (List.mem_range.mpr hi1') i2 (List.mem_range.mpr hi2') hne hsome1
    · intro s hs
      rw [List.mem_range] at hs
      have hs' : s < t.capacity := hs
      apply slotFindable_intro
      intro k' hk'
      by_cases hsi : s = i
      · subst hsi
        rw [getD_set_self t.entries s _ hilen] at hk'
        have hkk : k' = key := by
          injection hk' with h
          exact h.symm
        subst hkk
        rcases hcase with hkey | ⟨_, _, hfnd, _⟩
        · exact findable_set_live t.entries t.capacity s _ hilen hnotE k'
            s (findable_of_slotFindable t.entries t.capacity s k'
              (hfind s (List.mem_range.mpr hs')) hkey)
        · exact findable_set_live t.entries t.capacity s _ hilen hnotE k' s hfnd
      · rw [getD_set_ne t.entries i s _ (fun h => hsi h.symm)] at hk'
        have hold := findable_of_slotFindable t.entries t.capacity s k'
          (hfind s (List.mem_range.mpr hs')) hk'
        exact findable_set_live t.entries t.capacity i _ hilen hnotE k' s hold
  · rcases hcase with hkey | ⟨hnone, _, _, hprio⟩
    · exact Or.inl hkey
    · exact Or.inr ⟨hnone, hprio⟩

lemma tableSet_eq (t t₁ : Table) (key : ObjString) (v : Value) (i : Nat)
    (hphase : (if 4 * (t.count + 1) > 3 * t.capacity then
        adjustCapacity t (GROW_CAPACITY t.capacity) else some t) = some t₁)
    (hfe : findEntry t₁.entries t₁.capacity key = some i) :
    tableSet t key v = some ((t₁.entries.getD i emptyEntry).key.isNone,
      ⟨(if (t₁.entries.getD i emptyEntry).isEmptySlot then t₁.count + 1 else t₁.count),
        t₁.capacity, t₁.entries.set i ⟨some key, v⟩⟩) := by
  unfold tableSet
  simp only [hphase, hfe]
  rw [count_if_eq]

/-- Full behaviour of `tableSet` (src/table.c) on a well-formed table:
growth happens exactly when `count + 1 > 0.75 * capacity` and goes
through `adjustCapacity` to `GROW_CAPACITY capacity`; the probe then
finds a bucket; the returned flag is `isNewKey`; `count` is bumped only
for a truly empty bucket; the written pair is stored and all other
associations are unchanged. -/
lemma tableSet_spec (t : Table) (key : ObjString) (v : Value) (hwf : t.WF) :
    ∃ t₁ i b t', tableSet t key v = some (b, t') ∧
      Table.WF t₁ ∧ 0 < t₁.capacity ∧
      ((4 * (t.count + 1) > 3 * t.capacity ∧
        adjustCapacity t (GROW_CAPACITY t.capacity) = some t₁ ∧
        t₁.capacity = GROW_CAPACITY t.capacity ∧
        NoTombstones t₁.entries ∧ t₁.count = countLive t.entries) ∨
       (¬ (4 * (t.count + 1) > 3 * t.capacity) ∧ t₁ = t)) ∧
      (∀ k' v', t₁.holds k' v' ↔ t.holds k' v') ∧
      findEntry t₁.entries t₁.capacity key = some i ∧ i < t₁.capacity ∧
      b = (t₁.entries.getD i emptyEntry).key.isNone ∧
      (b = true ↔ ¬ t.hasKey key) ∧
      t' = ⟨(if (t₁.entries.getD i emptyEntry).isEmptySlot then t₁.count + 1 else t₁.count),
        t₁.capacity, t₁.entries.set i ⟨some key, v⟩⟩ ∧
      Table.WF t' ∧
      t'.holds key v ∧
      (∀ k' v', k' ≠ key → (t'.holds k' v' ↔ t.holds k' v')) ∧
      (∀ ts, (t₁.entries.getD ts emptyEntry).isTombstone →
        Findable t₁.entries t₁.capacity key ts → ¬ t.hasKey key →
        ¬ (t₁.entries.getD i emptyEntry).isEmptySlot) := by
  have hlen := hwf.1
  obtain ⟨t₁, hphase, hor, hwf1, hc1, hroom, hholds1⟩ :
      ∃ t₁, (if 4 * (t.count + 1) > 3 * t.capacity then
          adjustCapacity t (GROW_CAPACITY t.capacity) else some t) = some t₁ ∧
        ((4 * (t.count + 1) > 3 * t.capacity ∧
          adjustCapacity t (GROW_CAPACITY t.capacity) = some t₁ ∧
          t₁.capacity = GROW_CAPACITY t.capacity ∧
          NoTombstones t₁.entries ∧ t₁.count = countLive t.entries) ∨
         (¬ (4 * (t.count + 1) > 3 * t.capacity) ∧ t₁ = t)) ∧
        Table.WF t₁ ∧ 0 < t₁.capacity ∧ 4 * (t₁.count + 1) ≤ 3 * t₁.capacity ∧
        (∀ k' v', t₁.holds k' v' ↔ t.holds k' v') := by
    by_cases hg : 4 * (t.count + 1) > 3 * t.capacity
    · have hlive : countLive t.entries ≤ t.count := by
        have h1 := countLive_le_countNonEmpty t.entries
        have h2 := hwf.2.1
        omega
      have hload4 : 4 * countLive t.entries ≤ 3 * GROW_CAPACITY t.capacity := by
        have := grow_capacity_load t.count t.capacity (countLive t.entries)
          hwf.2.2.1 hlive
        omega
      obtain ⟨t₁, hadj, hcap1, hwf1, hnt1, hcnt1, hholds1⟩ :=
        adjustCapacity_spec t (GROW_CAPACITY t.capacity) hwf
          (GROW_CAPACITY_pos t.capacity) hload4
      refine ⟨t₁, by rw [if_pos hg]; exact hadj,
        Or.inl ⟨hg, hadj, hcap1, hnt1, hcnt1⟩, hwf1, ?_, ?_, hholds1⟩
      · rw [hcap1]
        exact GROW_CAPACITY_pos t.capacity
      · rw [hcnt1, hcap1]
        exact grow_capacity_load t.count t.capacity (countLive t.entries) hwf.2.2.1 hlive
    · refine ⟨t, by rw [if_neg hg], Or.inr ⟨hg, rfl⟩, hwf, ?_, by omega,
        fun _ _ => Iff.rfl⟩
      have := hwf.2.2.1
      omega
  obtain ⟨i, hfe, hi, hnew, hwfI, hcase⟩ := tableSet_insert t₁ key v hwf1 hc1 hroom
  have hlen1 : t₁.entries.length = t₁.capacity := hwf1.1
  have hilen1 : i < t₁.entries.length := by omega
  have hhasEq : t₁.hasKey key ↔ t.hasKey key := by
    rw [hasKey_iff_exists_holds t₁ hlen1 key, hasKey_iff_exists_holds t hlen key]
    constructor
    · rintro ⟨v', hv'⟩
      exact ⟨v', (hholds1 key v').mp hv'⟩
    · rintro ⟨v', hv'⟩
      exact ⟨v', (hholds1 key v').mpr hv'⟩
  refine ⟨t₁, i, (t₁.entries.getD i emptyEntry).key.isNone, _,
    tableSet_eq t t₁ key v i hphase hfe, hwf1, hc1, hor, hholds1, hfe, hi, rfl, ?_, rfl,
    hwfI, ?_, ?_, ?_⟩
  · rw [hnew, hhasEq]
  · exact ⟨i, hi, getD_set_self t₁.entries i _ hilen1⟩
  · intro k' v' hk'
    have hbucket : (t₁.entries.getD i emptyEntry).key ≠ some k' := by
      rcases hcase with hkey | ⟨hnone, _⟩
      · rw [hkey]
        intro hcon
        injection hcon with h
        exact hk' h.symm
      · rw [hnone]
        exact fun hcon => Option.noConfusion hcon
    rw [show (⟨(if (t₁.entries.getD i emptyEntry).isEmptySlot
          then t₁.count + 1 else t₁.count), t₁.capacity,
          t₁.entries.set i ⟨some key, v⟩⟩ : Table) =
        ⟨(if (t₁.entries.getD i emptyEntry).isEmptySlot
          then t₁.count + 1 else t₁.count), t₁.capacity,
          t₁.entries.set i ⟨some key, v⟩⟩ from rfl]
    rw [holds_set_ne t₁.count t₁.capacity _ t₁.entries i ⟨some key, v⟩ k' v' hlen1
      (by omega) hbucket (by
        intro hcon
        injection hcon with h
        exact hk' h.symm)]
    exact hholds1 k' v'
  · intro ts hT hF hnk
    rcases hcase with hkey | ⟨_, hprio⟩
    · exact absurd (hhasEq.mp ((hasKey_iff_slot t₁ key hlen1).mpr ⟨i, hi, hkey⟩)) hnk
    · intro hcon
      have := (hprio ts hT hF).2
      rw [hcon.2] at this
      exact Value.noConfusion this

/-- Lemma: `tableDelete` on a stored key: the bucket becomes a tombstone
(`key = NULL`, `value = true`), `count` is not decremented, the key is
no longer stored, all other associations are untouched, and the
tombstone stays on the probe path of the deleted key. -/
lemma tableDelete_spec_found (t : Table) (key : ObjString) (hwf : t.WF)
    (hhas : t.hasKey key) :
    ∃ s t', tableDelete t key = some (true, t') ∧
      s < t.capacity ∧ (t.entries.getD s emptyEntry).key = some key ∧
      t' = ⟨t.count, t.capacity, t.entries.set s ⟨none, Value.bool true⟩⟩ ∧
      Table.WF t' ∧
      (t'.entries.getD s emptyEntry).isTombstone ∧
      Findable t'.entries t'.capacity key s ∧
      (∀ e ∈ t'.entries, e.key ≠ some key) ∧
      (∀ k' v', k' ≠ key → (t'.holds k' v' ↔ t.holds k' v')) ∧
      (∀ v', ¬ t'.holds key v') := by
  obtain ⟨hlen, hcount, hload, hvalid, hdist, hfind⟩ := hwf
  have hpos : 0 < countNonEmpty t.entries := countNonEmpty_pos_of_hasKey t key hhas
  have hn0 : ¬ (t.count = 0) := by omega
  have hc : 0 < t.capacity := by omega
  obtain ⟨s, hs, hk⟩ := (hasKey_iff_slot t key hlen).mp hhas
  have hfe := findEntry_found t key ⟨hlen, hcount, hload, hvalid, hdist, hfind⟩ hc s hs hk
  have hslen : s < t.entries.length := by omega
  have heq : tableDelete t key = some (true, ⟨t.count, t.capacity,
      t.entries.set s ⟨none, Value.bool true⟩⟩) := by
    unfold tableDelete
    rw [if_neg hn0]
    simp only [hfe, hk]
  have hnotE : ¬ (⟨none, Value.bool true⟩ : Entry).isEmptySlot := by
    intro hcon
    exact Value.noConfusion hcon.2
  have hT : ((t.entries.set s ⟨none, Value.bool true⟩).getD s emptyEntry).isTombstone := by
    rw [getD_set_self t.entries s _ hslen]
    exact ⟨rfl, rfl⟩
  have hsNE : ¬ (t.entries.getD s emptyEntry).isEmptySlot := by
    intro hcon
    rw [hcon.1] at hk
    exact Option.noConfusion hk
  have habs : ∀ e ∈ t.entries.set s ⟨none, Value.bool true⟩, e.key ≠ some key := by
    intro e he hek
    obtain ⟨si, hsilen, heq'⟩ := List.mem_iff_getElem.mp he
    have hsilen' : si < t.entries.length := by
      have h1 := hsilen
      simpa using h1
    have hgd : ((t.entries.set s ⟨none, Value.bool true⟩).getD si emptyEntry).key
        = some key := by
      rw [getD_eq_getElem_of_lt _ _ hsilen, heq']
      exact hek
    by_cases hss : si = s
    · subst hss
      rw [getD_set_self t.entries si _ hsilen'] at hgd
      exact Option.noConfusion hgd
    · rw [getD_set_ne t.entries s si _ (fun h => hss h.symm)] at hgd
      have hd := hdist si (List.mem_range.mpr (by omega)) s (List.mem_range.mpr hs) hss
        (by rw [hgd]; rfl)
      rw [hgd, hk] at hd
      exact hd rfl
  refine ⟨s, _, heq, hs, hk, rfl, ?_, hT, ?_, habs, ?_, ?_⟩
  · -- well-formedness of the tombstoned table
    refine ⟨by simpa using hlen, ?_, hload, ?_, ?_, ?_⟩
    · show t.count = countNonEmpty (t.entries.set s ⟨none, Value.bool true⟩)
      rw [countNonEmpty_set_of_nonEmpty t.entries s _ hslen hsNE hnotE]
      exact hcount
    · intro e' he' hk'
      rcases List.mem_or_eq_of_mem_set he' with hmem | rfl
      · exact hvalid e' hmem hk'
      · exact Or.inr rfl
    · intro i1 hi1 i2 hi2 hne hsome1
      rw [List.mem_range] at hi1 hi2
      have hi1' : i1 < t.capacity := hi1
      have hi2' : i2 < t.capacity := hi2
      by_cases h1 : i1 = s
      · subst h1
        rw [getD_set_self t.entries i1 _ hslen] at hsome1
        exact Bool.noConfusion hsome1
      · rw [getD_set_ne t.entries s i1 _ (fun h => h1 h.symm)]
        rw [getD_set_ne t.entries s i1 _ (fun h => h1 h.symm)] at hsome1
        by_cases h2 : i2 = s
        · subst h2
          rw [getD_set_self t.entries i2 _ hslen]
          intro hcon
          rw [hcon] at hsome1
          exact Bool.noConfusion hsome1
        · rw [getD_set_ne t.entries s i2 _ (fun h => h2 h.symm)]
          exact hdist i1 (List.mem_range.mpr hi1') i2 (List.mem_range.mpr hi2') hne hsome1
    · intro si hsi
      rw [List.mem_range] at hsi
      have hsi' : si < t.capacity := hsi
      apply slotFindable_intro
      intro k' hk'
      by_cases hss : si = s
      · subst hss
        rw [getD_set_self t.entries si _ hslen] at hk'
        exact Option.noConfusion hk'
      · rw [getD_set_ne t.entries s si _ (fun h => hss h.symm)] at hk'
        have hold := findable_of_slotFindable t.entries t.capacity si k'
          (hfind si (List.mem_range.mpr hsi')) hk'
        exact findable_set_live t.entries t.capacity s _ hslen hnotE k' si hold
  · -- the tombstone stays on the probe path of the key
    have hold := findable_of_slotFindable t.entries t.capacity s key
      (hfind s (List.mem_range.mpr hs)) hk
    exact findable_set_live t.entries t.capacity s _ hslen hnotE key s hold
  · intro k' v' hk'
    exact holds_set_ne t.count t.capacity t.count t.entries s ⟨none, Value.bool true⟩
      k' v' hlen hs (by
        rw [hk]
        intro hcon
        injection hcon with h
        exact hk' h.symm)
      (fun hcon => Option.noConfusion hcon)
  · rintro v' ⟨si, hsi, hsv⟩
    have hsi' : si < t.capacity := hsi
    refine habs _ (getD_mem _ si (by simpa using (by omega : si < t.entries.length))) ?_
    rw [hsv]

/-- Lemma: `tableDelete` on an absent key returns `false` and leaves the table
unchanged. -/
lemma tableDelete_spec_absent (t : Table) (key : ObjString) (hwf : t.WF)
    (hnk : ¬ t.hasKey key) :
    tableDelete t key = some (false, t) := by
  obtain ⟨hlen, hcount, hload, hvalid, hdist, hfind⟩ := hwf
  unfold tableDelete
  by_cases hn0 : t.count = 0
  · rw [if_pos hn0]
  · rw [if_neg hn0]
    have hc : 0 < t.capacity := by omega
    have habs : ∀ e ∈ t.entries, e.key ≠ some key := by
      intro e he hek
      exact hnk ⟨e, he, hek⟩
    obtain ⟨i, hfe, hi, hnone, _⟩ :=
      findEntry_absent t key ⟨hlen, hcount, hload, hvalid, hdist, hfind⟩ hc habs
    simp only [hfe, hnone]

/-- Master characterisation of the probe loop of `tableFindString`:
the content-addressed probe stops on the interned string with the given
bytes, or on an empty bucket when no such string is interned. -/
lemma tableFindStringGo_spec (entries : List Entry) (cap : Nat) (chars : List Nat)
    (length hash : Nat)
    (hlen : entries.length = cap)
    (hfind : ∀ s, s < cap → slotFindable entries cap s)
    (hempty : ∃ s, s < cap ∧ (entries.getD s emptyEntry).isEmptySlot)
    (hHashOk : ∀ e ∈ entries, keyHashOk e)
    (hhash : hash = hashString chars) (hlch : length = chars.length) :
    ∀ fuel j, j + fuel = cap →
      (∀ j', j' < j →
        ¬ (entries.getD (probeIdx cap (hash % cap) j') emptyEntry).isEmptySlot ∧
        (∀ k, (entries.getD (probeIdx cap (hash % cap) j') emptyEntry).key = some k →
          k.chars ≠ chars)) →
      ∃ r, tableFindStringGo entries cap chars length hash fuel
          (probeIdx cap (hash % cap) j) = some r ∧
        ((∃ k, r = some k ∧
           (∃ s, s < cap ∧ (entries.getD s emptyEntry).key = some k) ∧
           k.chars = chars) ∨
         (r = none ∧ ∀ e ∈ entries, ∀ k, e.key = some k → k.chars ≠ chars)) := by
  intro fuel
  induction fuel with
  | zero =>
    intro j hj hvis
    exfalso
    obtain ⟨s, hs, hsE⟩ := hempty
    obtain ⟨j', hj', hPj'⟩ := probeIdx_cover cap (hash % cap) s (by omega) hs
    have hvj := (hvis j' (by omega)).1
    rw [hPj'] at hvj
    exact hvj hsE
  | succ fuel ih =>
    intro j hj hvis
    have hc : 0 < cap := by omega
    have hjc : j < cap := by omega
    have hidxlt : probeIdx cap (hash % cap) j < cap := probeIdx_lt cap _ j hc
    cases hk : (entries.getD (probeIdx cap (hash % cap) j) emptyEntry).key with
    | none =>
      by_cases hv : (entries.getD (probeIdx cap (hash % cap) j) emptyEntry).value = Value.nil
      · -- empty bucket: no string with these bytes is interned
        refine ⟨none, ?_, Or.inr ⟨rfl, ?_⟩⟩
        · simp only [tableFindStringGo, hk]
          rw [if_pos hv]
        · intro e he k hek hkch
          obtain ⟨s, hslen, rfl⟩ := List.mem_iff_getElem.mp he
          have hscap : s < cap := by omega
          have hgk : (entries.getD s emptyEntry).key = some k := by
            rw [getD_eq_getElem_of_lt entries s hslen]
            exact hek
          have hkh : k.hash = hash := by
            have hok := hHashOk _ (getD_mem entries s (by omega))
            unfold keyHashOk at hok
            rw [hgk] at hok
            rw [hok.1, hkch, hhash]
          have hsf := findable_of_slotFindable entries cap s k
            (hfind s hscap) hgk
          unfold Findable at hsf
          rw [hkh] at hsf
          obtain ⟨js, hjs, hPs, hNoE⟩ := hsf
          rw [List.mem_range] at hjs
          rcases Nat.lt_trichotomy js j with hlt | heq | hgt
          · have hv2 := (hvis js hlt).2
            rw [hPs] at hv2
            exact hv2 k hgk hkch
          · subst heq
            rw [hPs] at hk
            rw [hk] at hgk
            exact Option.noConfusion hgk
          · exact hNoE j (List.mem_range.mpr hgt) ⟨hk, hv⟩
      · -- tombstone: continue probing
        have hstep : tableFindStringGo entries cap chars length hash (fuel + 1)
            (probeIdx cap (hash % cap) j) =
            tableFindStringGo entries cap chars length hash fuel
              (probeIdx cap (hash % cap) (j + 1)) := by
          simp only [tableFindStringGo, hk]
          rw [if_neg hv, probeIdx_succ]
        rw [hstep]
        refine ih (j + 1) (by omega) ?_
        intro j' hj'
        rcases Nat.lt_or_ge j' j with h1 | h1
        · exact hvis j' h1
        · have hjj : j' = j := by omega
          subst hjj
          refine ⟨fun hE => hv hE.2, ?_⟩
          rw [hk]
          intro k hcon
          exact absurd hcon (fun h => Option.noConfusion h)
    | some k =>
      by_cases hmatch : k.length = length ∧ k.hash = hash ∧ k.chars = chars
      · refine ⟨some k, ?_, Or.inl ⟨k, rfl, ⟨probeIdx cap (hash % cap) j, hidxlt, hk⟩,
          hmatch.2.2⟩⟩
        simp only [tableFindStringGo, hk]
        rw [if_pos hmatch]
      · have hstep : tableFindStringGo entries cap chars length hash (fuel + 1)
            (probeIdx cap (hash % cap) j) =
            tableFindStringGo entries cap chars length hash fuel
              (probeIdx cap (hash % cap) (j + 1)) := by
          simp only [tableFindStringGo, hk]
          rw [if_neg hmatch, probeIdx_succ]
        rw [hstep]
        refine ih (j + 1) (by omega) ?_
        intro j' hj'
        rcases Nat.lt_or_ge j' j with h1 | h1
        · exact hvis j' h1
        · have hjj : j' = j := by omega
          rw [hjj]
          refine ⟨?_, ?_⟩
          · intro hE
            rw [hE.1] at hk
            exact Option.noConfusion hk
          · rw [hk]
            intro k' hk' hch
            injection hk' with hkk
            subst hkk
            apply hmatch
            have hok := hHashOk (entries.getD (probeIdx cap (hash % cap) j) emptyEntry)
              (getD_mem entries (probeIdx cap (hash % cap) j) (by omega))
            unfold keyHashOk at hok
            rw [hk] at hok
            refine ⟨?_, ?_, hch⟩
            · rw [hok.2, hch]
              exact hlch.symm
            · rw [hok.1, hch]
              exact hhash.symm

/-- Lemma: `tableFindString` on a well-interned table terminates and returns
exactly the stored string with the requested bytes, when one exists. -/
lemma tableFindString_spec (t : Table) (chars : List Nat) (length hash : Nat)
    (hwf : InternWF t)
    (hhash : hash = hashString chars) (hlch : length = chars.length) :
    ∃ r, tableFindString t chars length hash = some r ∧
      ((∃ k, r = some k ∧ t.hasKey k ∧ k.chars = chars ∧
        (∀ k', t.hasKey k' → k'.chars = chars → k' = k)) ∨
       (r = none ∧ ∀ k', t.hasKey k' → k'.chars ≠ chars)) := by
  obtain ⟨⟨hlen, hcount, hload, hvalid, hdist, hfind⟩, hok, hcdist⟩ := hwf
  unfold tableFindString
  by_cases h0 : t.count = 0
  · rw [if_pos h0]
    refine ⟨none, rfl, Or.inr ⟨rfl, ?_⟩⟩
    rintro k' ⟨e, he, hek⟩ _
    exact absent_of_count_zero t hcount h0 k' e he hek
  · rw [if_neg h0]
    have hc : 0 < t.capacity := by omega
    have hlt : countNonEmpty t.entries < t.capacity := by omega
    have hempty' := exists_empty_slot t.entries t.capacity hlen hlt
    have hmain := tableFindStringGo_spec t.entries t.capacity chars length hash hlen
      (fun s hs => hfind s (List.mem_range.mpr hs)) hempty' hok hhash hlch
      t.capacity 0 (by omega) (fun j' hj' => absurd hj' (Nat.not_lt_zero j'))
    rw [probeIdx_zero t.capacity (hash % t.capacity) (Nat.mod_lt _ hc)] at hmain
    obtain ⟨r, hr, hcase⟩ := hmain
    refine ⟨r, hr, ?_⟩
    rcases hcase with ⟨k, rfl, ⟨s, hs, hsk⟩, hkch⟩ | ⟨rfl, habs⟩
    · refine Or.inl ⟨k, rfl, (hasKey_iff_slot t k hlen).mpr ⟨s, hs, hsk⟩, hkch, ?_⟩
      intro k' hk' hch'
      obtain ⟨s', hs', hsk'⟩ := (hasKey_iff_slot t k' hlen).mp hk'
      by_cases hss : s' = s
      · subst hss
        rw [hsk] at hsk'
        injection hsk' with h
        exact h.symm
      · exfalso
        have hd := hcdist s' (List.mem_range.mpr hs') s (List.mem_range.mpr hs) hss
          (by rw [hsk']; rfl)
        rw [hsk', hsk] at hd
        apply hd
        simp only [Option.map_some']
        rw [hch', hkch]
    · refine Or.inr ⟨rfl, ?_⟩
      rintro k' ⟨e, he, hek⟩ hch
      exact habs e he k' hek hch

/-! ### Interning -/

lemma internWF_hashOk (t : Table) (h : InternWF t) :
    ∀ k, t.hasKey k → k.hash = hashString k.chars ∧ k.length = k.chars.length := by
  rintro k ⟨e, he, hek⟩
  have hok := h.2.1 e he
  unfold keyHashOk at hok
  rw [hek] at hok
  exact hok

lemma internWF_uniq (t : Table) (h : InternWF t) :
    ∀ k k', t.hasKey k → t.hasKey k' → k.chars = k'.chars → k = k' := by
  intro k k' hk hk' hch
  obtain ⟨⟨hlen, hcount, hload, hvalid, hdist, hfind⟩, _, hcdist⟩ := h
  obtain ⟨s, hs, hsk⟩ := (hasKey_iff_slot t k hlen).mp hk
  obtain ⟨s', hs', hsk'⟩ := (hasKey_iff_slot t k' hlen).mp hk'
  by_cases hss : s = s'
  · subst hss
    rw [hsk] at hsk'
    injection hsk'
  · exfalso
    have hd := hcdist s (List.mem_range.mpr hs) s' (List.mem_range.mpr hs') hss
      (by rw [hsk]; rfl)
    rw [hsk, hsk'] at hd
    apply hd
    simp only [Option.map_some']
    rw [hch]

lemma internWF_intro (t : Table) (hwf : t.WF)
    (hok : ∀ k, t.hasKey k → k.hash = hashString k.chars ∧ k.length = k.chars.length)
    (huniq : ∀ k k', t.hasKey k → t.hasKey k' → k.chars = k'.chars → k = k') :
    InternWF t := by
  refine ⟨hwf, ?_, ?_⟩
  · intro e he
    unfold keyHashOk
    cases hek : e.key with
    | none => trivial
    | some k => exact hok k ⟨e, he, hek⟩
  · intro i hi j hj hij hsome hcon
    rw [List.mem_range] at hi hj
    have hlen := hwf.1
    obtain ⟨k, hk⟩ := Option.isSome_iff_exists.mp hsome
    rw [hk] at hcon
    cases hkj : (t.entries.getD j emptyEntry).key with
    | none =>
      rw [hkj] at hcon
      simp at hcon
    | some k' =>
      rw [hkj] at hcon
      simp only [Option.map_some', Option.some.injEq] at hcon
      have heq := huniq k k' ⟨_, getD_mem t.entries i (by omega), hk⟩
        ⟨_, getD_mem t.entries j (by omega), hkj⟩ hcon
      subst heq
      have hd := hwf.2.2.2.2.1 i (List.mem_range.mpr hi) j (List.mem_range.mpr hj) hij
        (by rw [hk]; rfl)
      rw [hk, hkj] at hd
      exact hd rfl

/-- Inserting a correctly hashed string whose bytes are new preserves
the intern invariant, reports a new key, and adds exactly that key. -/
lemma tableSet_intern (t : Table) (s : ObjString) (v : Value) (hwf : InternWF t)
    (hok : s.hash = hashString s.chars ∧ s.length = s.chars.length)
    (hnew : ∀ k', t.hasKey k' → k'.chars ≠ s.chars) :
    ∃ b t', tableSet t s v = some (b, t') ∧ InternWF t' ∧ b = true ∧
      t'.hasKey s ∧ (∀ k', t'.hasKey k' ↔ (k' = s ∨ t.hasKey k')) ∧
      (∀ k' v', k' ≠ s → (t'.holds k' v' ↔ t.holds k' v')) := by
  have hnk : ¬ t.hasKey s := fun hcon => hnew s hcon rfl
  obtain ⟨t₁, i, b, t', heq, hwf1, hc1, hor, hholds1, hfe, hi, hbdef, hbiff, htd,
    hwf', hholdsNew, hpres, _⟩ := tableSet_spec t s v hwf.1
  have hlen' : t'.entries.length = t'.capacity := hwf'.1
  have hlen : t.entries.length = t.capacity := hwf.1.1
  have hhk : t'.hasKey s :=
    (hasKey_iff_exists_holds t' hlen' s).mpr ⟨v, hholdsNew⟩
  have hhkiff : ∀ k', t'.hasKey k' ↔ (k' = s ∨ t.hasKey k') := by
    intro k'
    by_cases hks : k' = s
    · subst hks
      exact ⟨fun _ => Or.inl rfl, fun _ => hhk⟩
    · rw [hasKey_iff_exists_holds t' hlen' k', hasKey_iff_exists_holds t hlen k']
      constructor
      · rintro ⟨v', hv'⟩
        exact Or.inr ⟨v', (hpres k' v' hks).mp hv'⟩
      · rintro (rfl | ⟨v', hv'⟩)
        · exact absurd rfl hks
        · exact ⟨v', (hpres k' v' hks).mpr hv'⟩
  refine ⟨b, t', heq, ?_, hbiff.mpr hnk, hhk, hhkiff, fun k' v' hks => hpres k' v' hks⟩
  refine internWF_intro t' hwf' ?_ ?_
  · intro k hk
    rcases (hhkiff k).mp hk with rfl | hold
    · exact hok
    · exact internWF_hashOk t hwf k hold
  · intro k k' hk hk' hch
    rcases (hhkiff k).mp hk with rfl | holdk
    · rcases (hhkiff k').mp hk' with rfl | holdk'
      · rfl
      · exact absurd hch.symm (hnew k' holdk')
    · rcases (hhkiff k').mp hk' with rfl | holdk'
      · exact absurd hch (hnew k holdk)
      · exact internWF_uniq t hwf k k' holdk holdk' hch

/-- Lemma: `allocateString` on bytes that are not yet interned: a fresh
string object is created, linked at the head of the allocation list,
and inserted as a key of the intern table. -/
lemma allocateString_spec (vm : VM) (charsPtr : Nat) (chars : List Nat) (length : Nat)
    (hwf : InternWF vm.strings) (hlch : length = chars.length)
    (hnew : ∀ k', vm.strings.hasKey k' → k'.chars ≠ chars) :
    ∃ vm' s, allocateString vm charsPtr chars length (hashString chars) = some (vm', s) ∧
      s = ⟨vm.nextAddr, length, charsPtr, chars, hashString chars⟩ ∧
      InternWF vm'.strings ∧
      vm'.strings.hasKey s ∧
      (∀ k', vm'.strings.hasKey k' ↔ (k' = s ∨ vm.strings.hasKey k')) ∧
      vm'.objects = (vm.nextAddr, HeapData.strObj s) :: vm.objects ∧
      vm'.buffers = vm.buffers ∧
      vm'.globals = vm.globals ∧
      vm'.nextAddr = vm.nextAddr + 1 := by
  have hok : (⟨vm.nextAddr, length, charsPtr, chars, hashString chars⟩ : ObjString).hash =
      hashString (⟨vm.nextAddr, length, charsPtr, chars,
        hashString chars⟩ : ObjString).chars ∧
      (⟨vm.nextAddr, length, charsPtr, chars, hashString chars⟩ : ObjString).length =
      (⟨vm.nextAddr, length, charsPtr, chars,
        hashString chars⟩ : ObjString).chars.length := ⟨rfl, hlch⟩
  obtain ⟨b, t', hset, hiwf', hb, hhk, hhkiff, hpres⟩ :=
    tableSet_intern vm.strings ⟨vm.nextAddr, length, charsPtr, chars, hashString chars⟩
      Value.nil hwf hok (fun k' hk' => hnew k' hk')
  refine ⟨{ vm with
      objects := (vm.nextAddr, HeapData.strObj
        ⟨vm.nextAddr, length, charsPtr, chars, hashString chars⟩) :: vm.objects,
      nextAddr := vm.nextAddr + 1,
      strings := t' },
    ⟨vm.nextAddr, length, charsPtr, chars, hashString chars⟩,
    ?_, rfl, hiwf', hhk, hhkiff, rfl, rfl, rfl, rfl⟩
  unfold allocateString allocateObject
  simp only [hset]

/-- Lemma: `copyString` consults the intern pool first: byte-equal content
yields the canonical interned reference with no allocation and no state
change; fresh content allocates a copy buffer and a new interned
string. -/
lemma copyString_spec (vm : VM) (chars : List Nat) (length : Nat)
    (hwf : InternWF vm.strings) (hlch : length = chars.length) :
    ∃ vm' s, copyString vm chars length = some (vm', s) ∧
      InternWF vm'.strings ∧ s.chars = chars ∧
      vm'.strings.hasKey s ∧
      (∀ k', vm'.strings.hasKey k' → k'.chars = chars → k' = s) ∧
      (∀ k, vm.strings.hasKey k → k.chars = chars → (vm' = vm ∧ s = k)) ∧
      ((∀ k, vm.strings.hasKey k → k.chars ≠ chars) →
        (s = ⟨vm.nextAddr + 1, length, vm.nextAddr, chars, hashString chars⟩ ∧
         vm'.objects = (vm.nextAddr + 1, HeapData.strObj s) :: vm.objects ∧
         vm'.buffers = (vm.nextAddr, length + 1) :: vm.buffers ∧
         vm'.globals = vm.globals)) := by
  obtain ⟨r, hr, hcase⟩ := tableFindString_spec vm.strings chars length (hashString chars)
    hwf rfl hlch
  rcases hcase with ⟨k, rfl, hk, hkch, huniq⟩ | ⟨rfl, habs⟩
  · refine ⟨vm, k, ?_, hwf, hkch, hk, ?_, ?_, ?_⟩
    · unfold copyString
      simp only [hr]
    · intro k' hk' hch'
      exact huniq k' hk' hch'
    · intro k0 hk0 hch0
      exact ⟨rfl, (huniq k0 hk0 hch0).symm⟩
    · intro habs'
      exact absurd hkch (habs' k hk)
  · obtain ⟨vm', s, halloc, hsdef, hiwf', hhk, hhkiff, hobj, hbuf, hglob, hna⟩ :=
      allocateString_spec
        { vm with
          buffers := (vm.nextAddr, length + 1) :: vm.buffers
          nextAddr := vm.nextAddr + 1 }
        vm.nextAddr chars length hwf hlch habs
    refine ⟨vm', s, ?_, hiwf', by rw [hsdef], hhk, ?_, ?_, ?_⟩
    · unfold copyString
      simp only [hr]
      exact halloc
    · intro k' hk' hch'
      rcases (hhkiff k').mp hk' with rfl | hold
      · rfl
      · exact absurd hch' (habs k' hold)
    · intro k0 hk0 hch0
      exact absurd hch0 (habs k0 hk0)
    · intro _
      exact ⟨hsdef, hobj, hbuf, hglob⟩

/-- Lemma: `takeString` consults the intern pool first: byte-equal content
frees the caller's `length + 1`-byte buffer and returns the canonical
interned reference; fresh content takes ownership of the buffer and
wraps it in a new interned string. -/
lemma takeString_spec (vm : VM) (charsPtr : Nat) (chars : List Nat) (length : Nat)
    (hwf : InternWF vm.strings) (hlch : length = chars.length) :
    ∃ vm' s, takeString vm charsPtr chars length = some (vm', s) ∧
      InternWF vm'.strings ∧ s.chars = chars ∧
      vm'.strings.hasKey s ∧
      (∀ k', vm'.strings.hasKey k' → k'.chars = chars → k' = s) ∧
      (∀ k, vm.strings.hasKey k → k.chars = chars →
        (s = k ∧
         vm' = { vm with buffers := vm.buffers.erase (charsPtr, length + 1) })) ∧
      ((∀ k, vm.strings.hasKey k → k.chars ≠ chars) →
        (s = ⟨vm.nextAddr, length, charsPtr, chars, hashString chars⟩ ∧
         vm'.objects = (vm.nextAddr, HeapData.strObj s) :: vm.objects ∧
         vm'.buffers = vm.buffers)) := by
  obtain ⟨r, hr, hcase⟩ := tableFindString_spec vm.strings chars length (hashString chars)
    hwf rfl hlch
  rcases hcase with ⟨k, rfl, hk, hkch, huniq⟩ | ⟨rfl, habs⟩
  · refine ⟨{ vm with buffers := vm.buffers.erase (charsPtr, length + 1) }, k, ?_,
      hwf, hkch, hk, ?_, ?_, ?_⟩
    · unfold takeString
      simp only [hr]
    · intro k' hk' hch'
      exact huniq k' hk' hch'
    · intro k0 hk0 hch0
      exact ⟨(huniq k0 hk0 hch0).symm, rfl⟩
    · intro habs'
      exact absurd hkch (habs' k hk)
  · obtain ⟨vm', s, halloc, hsdef, hiwf', hhk, hhkiff, hobj, hbuf, hglob, hna⟩ :=
      allocateString_spec vm charsPtr chars length hwf hlch habs
    refine ⟨vm', s, ?_, hiwf', by rw [hsdef], hhk, ?_, ?_, ?_⟩
    · unfold takeString
      simp only [hr]
      exact halloc
    · intro k' hk' hch'
      rcases (hhkiff k').mp hk' with rfl | hold
      · rfl
      · exact absurd hch' (habs k' hold)
    · intro k0 hk0 hch0
      exact absurd hch0 (habs k0 hk0)
    · intro _
      exact ⟨hsdef, hobj, hbuf⟩

/-- Lemma: `tableGet` on a well-formed table terminates and agrees with the
model-level lookup. -/
lemma tableGet_spec (t : Table) (k : ObjString) (hwf : t.WF) :
    tableGet t k = some (t.lookup k) := by
  obtain ⟨hlen, hcount, hload, hvalid, hdist, hfind⟩ := hwf
  unfold tableGet
  by_cases h0 : t.count = 0
  · rw [if_pos h0, lookup_eq_none_of_absent t k (absent_of_count_zero t hcount h0 k)]
  · rw [if_neg h0]
    have hc : 0 < t.capacity := by
      rcases Nat.eq_zero_or_pos t.capacity with hcap | hcap
      · exfalso
        have : t.entries = [] := List.length_eq_zero.mp (by omega)
        rw [this] at hcount
        simp [countNonEmpty] at hcount
        exact h0 hcount
      · exact hcap
    by_cases hhas : t.hasKey k
    · obtain ⟨s, hs, hk⟩ := (hasKey_iff_slot t k hlen).mp hhas
      rw [findEntry_found t k ⟨hlen, hcount, hload, hvalid, hdist, hfind⟩ hc s hs hk]
      simp only [hk]
      rw [lookup_eq_of_slot t k s hlen hdist hs hk]
    · have habs : ∀ e ∈ t.entries, e.key ≠ some k := by
        intro e he hek
        exact hhas ⟨e, he, hek⟩
      obtain ⟨i, hfe, hilt, hnone, _⟩ :=
        findEntry_absent t k ⟨hlen, hcount, hload, hvalid, hdist, hfind⟩ hc habs
      rw [hfe]
      simp only [hnone]
      rw [lookup_eq_none_of_absent t k habs]

/-- Lemma: the allocation list is searched head-first, so a lookup for a
different address passes over the head. -/
lemma heapGet_cons_ne (a id : Nat) (d : HeapData) (rest : List (Nat × HeapData))
    (h : id ≠ a) : heapGet ((a, d) :: rest) id = heapGet rest id := by
  unfold heapGet
  rw [List.find?_cons_of_neg]
  show ¬ ((a, d).1 == id) = true
  simp only [beq_iff_eq]
  exact fun hc => h hc.symm

/-- Lemma: reading back a just-written stack slot. -/
lemma valGetD_set_self (l : List Value) (i : Nat) (a : Value) (h : i < l.length) :
    (l.set i a).getD i Value.nil = a := by
  rw [List.getD_eq_getElem _ _ (by simpa using h)]
  exact List.getElem_set_self (by simpa using h)

/-! ## The claims -/

/-- C6: on a well-formed table, `tableSet` grows exactly when
`count + 1 > 0.75 * capacity`, through `adjustCapacity` to
`GROW_CAPACITY capacity` (0 becomes 8, otherwise the capacity doubles);
the rehash drops every tombstone, keeps exactly the live associations
and resets `count` to their number; the write bumps `count` only when
the probed bucket is truly empty — in particular not when it is a
tombstone — and `tableDelete` turns a stored key's bucket into the
tombstone `(key = NULL, value = true)` without ever changing `count`. -/
theorem C6_tableSet_growth_rehash_counts :
    (GROW_CAPACITY 0 = 8 ∧ ∀ c, 8 ≤ c → GROW_CAPACITY c = 2 * c) ∧
    (∀ (t : Table) (key : ObjString) (v : Value), t.WF →
      ∃ t₁ i b t', tableSet t key v = some (b, t') ∧
        (4 * (t.count + 1) > 3 * t.capacity →
          adjustCapacity t (GROW_CAPACITY t.capacity) = some t₁ ∧
          t₁.capacity = GROW_CAPACITY t.capacity ∧
          NoTombstones t₁.entries ∧ t₁.count = countLive t.entries ∧
          (∀ k' v', t₁.holds k' v' ↔ t.holds k' v')) ∧
        (¬ 4 * (t.count + 1) > 3 * t.capacity → t₁ = t) ∧
        findEntry t₁.entries t₁.capacity key = some i ∧
        t' = ⟨(if (t₁.entries.getD i emptyEntry).isEmptySlot then t₁.count + 1
               else t₁.count), t₁.capacity, t₁.entries.set i ⟨some key, v⟩⟩ ∧
        ((t₁.entries.getD i emptyEntry).isTombstone → t'.count = t₁.count)) ∧
    (∀ (t : Table) (key : ObjString), t.WF → t.hasKey key →
      ∃ s t', tableDelete t key = some (true, t') ∧
        t' = ⟨t.count, t.capacity, t.entries.set s ⟨none, Value.bool true⟩⟩ ∧
        (t'.entries.getD s emptyEntry).key = none ∧
        (t'.entries.getD s emptyEntry).value = Value.bool true ∧
        t'.count = t.count) ∧
    (∀ (t : Table) (key : ObjString), t.WF → ¬ t.hasKey key →
      tableDelete t key = some (false, t)) := by
  refine ⟨⟨rfl, ?_⟩, ?_, ?_, ?_⟩
  · intro c hc
    unfold GROW_CAPACITY
    rw [if_neg (by omega)]
  · intro t key v hwf
    obtain ⟨t₁, i, b, t', heq, hwf1, hc1, hor, hholds1, hfe, hi, hbdef, hbiff, htd,
      hwf', hholdsNew, hpres, hprio⟩ := tableSet_spec t key v hwf
    refine ⟨t₁, i, b, t', heq, ?_, ?_, hfe, htd, ?_⟩
    · intro hg
      rcases hor with ⟨_, hadj, hcap, hnt, hcnt⟩ | ⟨hng, _⟩
      · exact ⟨hadj, hcap, hnt, hcnt, hholds1⟩
      · exact absurd hg hng
    · intro hng
      rcases hor with ⟨hg, _⟩ | ⟨_, ht₁⟩
      · exact absurd hg hng
      · exact ht₁
    · intro hT
      have hne : ¬ (t₁.entries.getD i emptyEntry).isEmptySlot := by
        intro hcon
        have hv := hcon.2
        rw [hT.2] at hv
        exact Value.noConfusion hv
      rw [htd]
      show (if (t₁.entries.getD i emptyEntry).isEmptySlot then t₁.count + 1
        else t₁.count) = t₁.count
      rw [if_neg hne]
  · intro t key hwf hhas
    obtain ⟨s, t', heq, hs, hk, htd, hwf', hT, hF, habs, hpres, hnold⟩ :=
      tableDelete_spec_found t key hwf hhas
    exact ⟨s, t', heq, htd, hT.1, hT.2, by rw [htd]⟩
  · intro t key hwf hnk
    exact tableDelete_spec_absent t key hwf hnk

/-- C6 witness: the growth schedule at 0 and 16, and the insert/delete
clauses at the concrete table `tblA` (holding the key "a"). -/
theorem C6_tableSet_growth_rehash_counts_witness :
    Table.WF tblA ∧ Table.hasKey tblA keyA ∧ ¬ Table.hasKey tblA keyB ∧
    (∃ t₁ i b t', tableSet tblA keyB (Value.number 2) = some (b, t') ∧
      (4 * (tblA.count + 1) > 3 * tblA.capacity →
        adjustCapacity tblA (GROW_CAPACITY tblA.capacity) = some t₁ ∧
        t₁.capacity = GROW_CAPACITY tblA.capacity ∧
        NoTombstones t₁.entries ∧ t₁.count = countLive tblA.entries ∧
        (∀ k' v', t₁.holds k' v' ↔ tblA.holds k' v')) ∧
      (¬ 4 * (tblA.count + 1) > 3 * tblA.capacity → t₁ = tblA) ∧
      findEntry t₁.entries t₁.capacity keyB = some i ∧
      t' = ⟨(if (t₁.entries.getD i emptyEntry).isEmptySlot then t₁.count + 1
             else t₁.count), t₁.capacity, t₁.entries.set i ⟨some keyB, Value.number 2⟩⟩ ∧
      ((t₁.entries.getD i emptyEntry).isTombstone → t'.count = t₁.count)) ∧
    (∃ s t', tableDelete tblA keyA = some (true, t') ∧
      t' = ⟨tblA.count, tblA.capacity, tblA.entries.set s ⟨none, Value.bool true⟩⟩ ∧
      (t'.entries.getD s emptyEntry).key = none ∧
      (t'.entries.getD s emptyEntry).value = Value.bool true ∧
      t'.count = tblA.count) ∧
    tableDelete tblA keyB = some (false, tblA) :=
  ⟨by decide, by decide, by decide,
   C6_tableSet_growth_rehash_counts.2.1 tblA keyB (Value.number 2) (by decide),
   C6_tableSet_growth_rehash_counts.2.2.1 tblA keyA (by decide) (by decide),
   C6_tableSet_growth_rehash_counts.2.2.2 tblA keyB (by decide) (by decide)⟩

/-- C10: deleting a stored key and immediately reinserting it without an
intervening growth reports the key as new (`true`): the probe resolves
to a bucket that is not truly empty (the tombstone path), so `count` is
not incremented — the round trip leaves `count` exactly where it was —
while `tableGet` afterwards finds the reinserted value. -/
theorem C10_delete_then_reinsert (t : Table) (k : ObjString) (v : Value)
    (hwf : t.WF) (hhas : t.hasKey k) (td : Table)
    (hdel : tableDelete t k = some (true, td))
    (hng : ¬ 4 * (td.count + 1) > 3 * td.capacity) :
    ∃ i t', tableSet td k v = some (true, t') ∧
      findEntry td.entries td.capacity k = some i ∧
      ¬ (td.entries.getD i emptyEntry).isEmptySlot ∧
      (td.entries.getD i emptyEntry).isTombstone ∧
      t'.count = td.count ∧ t'.count = t.count ∧
      tableGet t' k = some (some v) := by
  obtain ⟨s, td0, heq, hs, hk, htd0, hwfD, hT, hF, habs, hpresD, hnold⟩ :=
    tableDelete_spec_found t k hwf hhas
  rw [heq] at hdel
  injection hdel with hdel1
  injection hdel1 with hfst hsnd
  rw [hsnd] at htd0 hwfD hT hF habs hnold
  have hnk : ¬ td.hasKey k := by
    intro hcon
    obtain ⟨v', hv'⟩ := (hasKey_iff_exists_holds td hwfD.1 k).mp hcon
    exact hnold v' hv'
  obtain ⟨t₁, i, b, t', heqS, hwf1, hc1, hor, hholds1, hfe, hi, hbdef, hbiff, htd,
    hwfS, hholdsNew, hpresS, hprio⟩ := tableSet_spec td k v hwfD
  have ht₁ : t₁ = td := by
    rcases hor with ⟨hg, _⟩ | ⟨_, ht₁⟩
    · exact absurd hg hng
    · exact ht₁
  rw [ht₁] at hwf1 hc1 hfe hi hbdef htd hprio
  have hb : b = true := hbiff.mpr hnk
  subst hb
  have hne : ¬ (td.entries.getD i emptyEntry).isEmptySlot := hprio s hT hF hnk
  have hkeyI : (td.entries.getD i emptyEntry).key = none :=
    Option.isNone_iff_eq_none.mp hbdef.symm
  have hTI : (td.entries.getD i emptyEntry).isTombstone := by
    have hmem : td.entries.getD i emptyEntry ∈ td.entries := by
      have hlen : td.entries.length = td.capacity := hwfD.1
      exact getD_mem td.entries i (by omega)
    rcases hwfD.2.2.2.1 (td.entries.getD i emptyEntry) hmem hkeyI with hE | hTs
    · exact absurd ⟨hkeyI, hE⟩ hne
    · exact ⟨hkeyI, hTs⟩
  have hcount' : t'.count = td.count := by
    rw [htd]
    show (if (td.entries.getD i emptyEntry).isEmptySlot then td.count + 1
      else td.count) = td.count
    rw [if_neg hne]
  have hcountD : td.count = t.count := by rw [htd0]
  have hget : tableGet t' k = some (some v) := by
    rw [tableGet_spec t' k hwfS]
    rw [(lookup_iff_holds t' hwfS k v).mpr hholdsNew]
  exact ⟨i, t', heqS, hfe, hne, hTI, hcount', by omega, hget⟩

/-- C10 witness: the round trip on the concrete table `tblA` — delete
"a" (tombstone), reinsert "a" with value 7, `count` unchanged, lookup
succeeds. -/
theorem C10_delete_then_reinsert_witness :
    Table.WF tblA ∧ Table.hasKey tblA keyA ∧
    tableDelete tblA keyA = some (true, tblAdel) ∧
    ¬ 4 * (tblAdel.count + 1) > 3 * tblAdel.capacity ∧
    (∃ i t', tableSet tblAdel keyA (Value.number 7) = some (true, t') ∧
      findEntry tblAdel.entries tblAdel.capacity keyA = some i ∧
      ¬ (tblAdel.entries.getD i emptyEntry).isEmptySlot ∧
      (tblAdel.entries.getD i emptyEntry).isTombstone ∧
      t'.count = tblAdel.count ∧ t'.count = tblA.count ∧
      tableGet t' keyA = some (some (Value.number 7))) :=
  ⟨by decide, by decide, by decide, by decide,
   C10_delete_then_reinsert tblA keyA (Value.number 7) (by decide) (by decide)
     tblAdel (by decide) (by decide)⟩

/-- C7: `OP_SET_GLOBAL` on an already-bound name overwrites the binding
with `peek(0)` and falls through to the next instruction with the stack
untouched (the assigned value stays on top); on a never-defined name it
deletes the accidental binding again and reports a runtime error, and a
subsequent `OP_GET_GLOBAL` of that name still fails. -/
theorem C7_op_set_global (vm : VM) (name : ObjString) (hwf : vm.globals.WF) :
    (vm.globals.hasKey name →
      ∃ vm', opSetGlobal vm name = some (StepResult.next vm') ∧
        vm'.stack = vm.stack ∧ peek vm' 0 = peek vm 0 ∧
        vm'.globals.holds name (peek vm 0) ∧
        (∀ k' v', k' ≠ name → (vm'.globals.holds k' v' ↔ vm.globals.holds k' v'))) ∧
    (¬ vm.globals.hasKey name →
      ∃ vm', opSetGlobal vm name = some (StepResult.runtimeError vm') ∧
        ¬ vm'.globals.hasKey name ∧
        opGetGlobal vm' name = some (StepResult.runtimeError (resetStack vm'))) := by
  obtain ⟨t₁, i, b, t', heqS, hwf1, hc1, hor, hholds1, hfe, hi, hbdef, hbiff, htd,
    hwfS, hholdsNew, hpresS, hprio⟩ := tableSet_spec vm.globals name (peek vm 0) hwf
  constructor
  · intro hhas
    have hb : b = false := by
      cases b with
      | false => rfl
      | true => exact absurd hhas (hbiff.mp rfl)
    subst hb
    refine ⟨{ vm with globals := t' }, ?_, rfl, rfl, hholdsNew, hpresS⟩
    unfold opSetGlobal
    simp only [heqS]
    simp
  · intro hnk
    have hb : b = true := hbiff.mpr hnk
    subst hb
    have hlen' : t'.entries.length = t'.capacity := hwfS.1
    have hhas' : t'.hasKey name :=
      (hasKey_iff_exists_holds t' hlen' name).mpr ⟨peek vm 0, hholdsNew⟩
    obtain ⟨s, t'', heqD, hs, hkD, htdd, hwfDD, hTD, hFD, habsD, hpresD, hnoldD⟩ :=
      tableDelete_spec_found t' name hwfS hhas'
    have habsent : ¬ t''.hasKey name := by
      intro hcon
      obtain ⟨v', hv'⟩ := (hasKey_iff_exists_holds t'' hwfDD.1 name).mp hcon
      exact hnoldD v' hv'
    refine ⟨resetStack { vm with globals := t'' }, ?_, habsent, ?_⟩
    · unfold opSetGlobal
      simp only [heqS]
      rw [if_pos trivial]
      simp only [heqD]
    · have hget : tableGet t'' name = some none := by
        rw [tableGet_spec t'' name hwfDD, lookup_eq_none_of_absent t'' name habsD]
      unfold opGetGlobal
      rw [show tableGet (resetStack { vm with globals := t'' }).globals name
        = some none from hget]

/-- C7 witness: at the concrete state `c7vm` (globals hold "a", stack
top is 5) with the bound name "a" and the unbound name "b". -/
theorem C7_op_set_global_witness :
    Table.WF c7vm.globals ∧ c7vm.globals.hasKey keyA ∧ ¬ c7vm.globals.hasKey keyB ∧
    ((c7vm.globals.hasKey keyA →
      ∃ vm', opSetGlobal c7vm keyA = some (StepResult.next vm') ∧
        vm'.stack = c7vm.stack ∧ peek vm' 0 = peek c7vm 0 ∧
        vm'.globals.holds keyA (peek c7vm 0) ∧
        (∀ k' v', k' ≠ keyA → (vm'.globals.holds k' v' ↔ c7vm.globals.holds k' v'))) ∧
     (¬ c7vm.globals.hasKey keyA →
      ∃ vm', opSetGlobal c7vm keyA = some (StepResult.runtimeError vm') ∧
        ¬ vm'.globals.hasKey keyA ∧
        opGetGlobal vm' keyA = some (StepResult.runtimeError (resetStack vm')))) ∧
    ((c7vm.globals.hasKey keyB →
      ∃ vm', opSetGlobal c7vm keyB = some (StepResult.next vm') ∧
        vm'.stack = c7vm.stack ∧ peek vm' 0 = peek c7vm 0 ∧
        vm'.globals.holds keyB (peek c7vm 0) ∧
        (∀ k' v', k' ≠ keyB → (vm'.globals.holds k' v' ↔ c7vm.globals.holds k' v'))) ∧
     (¬ c7vm.globals.hasKey keyB →
      ∃ vm', opSetGlobal c7vm keyB = some (StepResult.runtimeError vm') ∧
        ¬ vm'.globals.hasKey keyB ∧
        opGetGlobal vm' keyB = some (StepResult.runtimeError (resetStack vm')))) :=
  ⟨by decide, by decide, by decide,
   C7_op_set_global c7vm keyA (by decide),
   C7_op_set_global c7vm keyB (by decide)⟩

/-- C5: both interning entry points consult the pool by content first
(`tableFindString`) and return the canonical string; a new string is
interned at once as a key of `vm.strings`; hence two runs with
byte-equal content — through either entry point, in either order —
return the identical object reference. -/
theorem C5_intern_uniqueness :
    (∀ (vm : VM) (chars : List Nat) (length : Nat),
      InternWF vm.strings → length = chars.length →
      ∃ vm' s, copyString vm chars length = some (vm', s) ∧
        InternWF vm'.strings ∧ s.chars = chars ∧ vm'.strings.hasKey s ∧
        (∀ k', vm'.strings.hasKey k' → k'.chars = chars → k' = s) ∧
        (∀ k, vm.strings.hasKey k → k.chars = chars → (vm' = vm ∧ s = k))) ∧
    (∀ (vm : VM) (charsPtr : Nat) (chars : List Nat) (length : Nat),
      InternWF vm.strings → length = chars.length →
      ∃ vm' s, takeString vm charsPtr chars length = some (vm', s) ∧
        InternWF vm'.strings ∧ s.chars = chars ∧ vm'.strings.hasKey s ∧
        (∀ k', vm'.strings.hasKey k' → k'.chars = chars → k' = s)) ∧
    (∀ (u₁ u₂ : Bool) (p₁ p₂ : Nat) (vm : VM) (chars : List Nat) (length : Nat)
      (vm₁ : VM) (s₁ : ObjString) (vm₂ : VM) (s₂ : ObjString),
      InternWF vm.strings → length = chars.length →
      stringIntern u₁ p₁ vm chars length = some (vm₁, s₁) →
      stringIntern u₂ p₂ vm₁ chars length = some (vm₂, s₂) →
      s₂ = s₁) := by
  refine ⟨?_, ?_, ?_⟩
  · intro vm chars length hwf hlch
    obtain ⟨vm', s, heq, hiwf, hch, hhk, huniq, hint, _⟩ :=
      copyString_spec vm chars length hwf hlch
    exact ⟨vm', s, heq, hiwf, hch, hhk, huniq, hint⟩
  · intro vm charsPtr chars length hwf hlch
    obtain ⟨vm', s, heq, hiwf, hch, hhk, huniq, _, _⟩ :=
      takeString_spec vm charsPtr chars length hwf hlch
    exact ⟨vm', s, heq, hiwf, hch, hhk, huniq⟩
  · intro u₁ u₂ p₁ p₂ vm chars length vm₁ s₁ vm₂ s₂ hwf hlch h₁ h₂
    have hfirst : InternWF vm₁.strings ∧ s₁.chars = chars ∧ vm₁.strings.hasKey s₁ := by
      cases u₁ with
      | true =>
        obtain ⟨vm₁', s₁', heq, hiwf, hch, hhk, _, _, _⟩ :=
          takeString_spec vm p₁ chars length hwf hlch
        rw [show stringIntern true p₁ vm chars length
            = takeString vm p₁ chars length from rfl, heq] at h₁
        injection h₁ with h₁'
        injection h₁' with hvm hs
        rw [← hvm, ← hs]
        exact ⟨hiwf, hch, hhk⟩
      | false =>
        obtain ⟨vm₁', s₁', heq, hiwf, hch, hhk, _, _, _⟩ :=
          copyString_spec vm chars length hwf hlch
        rw [show stringIntern false p₁ vm chars length
            = copyString vm chars length from rfl, heq] at h₁
        injection h₁ with h₁'
        injection h₁' with hvm hs
        rw [← hvm, ← hs]
        exact ⟨hiwf, hch, hhk⟩
    obtain ⟨hiwf₁, hch₁, hhk₁⟩ := hfirst
    cases u₂ with
    | true =>
      obtain ⟨vm₂', s₂', heq, _, _, _, _, hint, _⟩ :=
        takeString_spec vm₁ p₂ chars length hiwf₁ hlch
      rw [show stringIntern true p₂ vm₁ chars length
          = takeString vm₁ p₂ chars length from rfl, heq] at h₂
      injection h₂ with h₂'
      injection h₂' with hvm hs
      rw [← hs]
      exact (hint s₁ hhk₁ hch₁).1
    | false =>
      obtain ⟨vm₂', s₂', heq, _, _, _, _, hint, _⟩ :=
        copyString_spec vm₁ chars length hiwf₁ hlch
      rw [show stringIntern false p₂ vm₁ chars length
          = copyString vm₁ chars length from rfl, heq] at h₂
      injection h₂ with h₂'
      injection h₂' with hvm hs
      rw [← hs]
      exact (hint s₁ hhk₁ hch₁).2

/-- C5 witness: interning "a" twice from the empty VM returns the same
string object. -/
theorem C5_intern_uniqueness_witness :
    InternWF emptyVM.strings ∧ (1 : Nat) = [97].length ∧
    stringIntern false 0 emptyVM [97] 1 = some (c5vm1, c5s1) ∧
    stringIntern false 0 c5vm1 [97] 1 = some (c5vm2, c5s2) ∧
    c5s2 = c5s1 :=
  ⟨by decide, by decide, by decide, by decide,
   C5_intern_uniqueness.2.2 false false 0 0 emptyVM [97] 1 c5vm1 c5s1 c5vm2 c5s2
     (by decide) (by decide) (by decide) (by decide)⟩

/-- C9: `takeString` on already-interned content frees the caller's
`length + 1`-byte buffer (it is erased from the live-buffer list) and
returns the canonical interned string, not a new object; only on fresh
content does it keep the buffer and wrap it (`s.charsPtr` is the
caller's pointer) in a newly interned string. -/
theorem C9_takeString_buffer_ownership (vm : VM) (charsPtr : Nat) (chars : List Nat)
    (length : Nat) (hwf : InternWF vm.strings) (hlch : length = chars.length) :
    ∃ vm' s, takeString vm charsPtr chars length = some (vm', s) ∧
      s.chars = chars ∧ vm'.strings.hasKey s ∧
      (∀ k, vm.strings.hasKey k → k.chars = chars →
        (s = k ∧
         vm' = { vm with buffers := vm.buffers.erase (charsPtr, length + 1) })) ∧
      ((∀ k, vm.strings.hasKey k → k.chars ≠ chars) →
        (s = ⟨vm.nextAddr, length, charsPtr, chars, hashString chars⟩ ∧
         s.charsPtr = charsPtr ∧
         vm'.objects = (vm.nextAddr, HeapData.strObj s) :: vm.objects ∧
         vm'.buffers = vm.buffers)) := by
  obtain ⟨vm', s, heq, hiwf, hch, hhk, huniq, hint, hfresh⟩ :=
    takeString_spec vm charsPtr chars length hwf hlch
  refine ⟨vm', s, heq, hch, hhk, hint, ?_⟩
  intro habs
  obtain ⟨hsdef, hobj, hbuf⟩ := hfresh habs
  exact ⟨hsdef, by rw [hsdef], hobj, hbuf⟩

/-- C9 witness: at `c9vm` (the string "b" interned, its buffer at
address 0) — handing "b" again frees the handed buffer and returns the
canonical string; handing the fresh "c" keeps the buffer. -/
theorem C9_takeString_buffer_ownership_witness :
    InternWF c9vm.strings ∧ (1 : Nat) = [98].length ∧
    (∃ vm' s, takeString c9vm 0 [98] 1 = some (vm', s) ∧
      s.chars = [98] ∧ vm'.strings.hasKey s ∧
      (∀ k, c9vm.strings.hasKey k → k.chars = [98] →
        (s = k ∧
         vm' = { c9vm with buffers := c9vm.buffers.erase (0, 1 + 1) })) ∧
      ((∀ k, c9vm.strings.hasKey k → k.chars ≠ [98]) →
        (s = ⟨c9vm.nextAddr, 1, 0, [98], hashString [98]⟩ ∧
         s.charsPtr = 0 ∧
         vm'.objects = (c9vm.nextAddr, HeapData.strObj s) :: c9vm.objects ∧
         vm'.buffers = c9vm.buffers))) ∧
    (∃ vm' s, takeString c9vm 5 [99] 1 = some (vm', s) ∧
      s.chars = [99] ∧ vm'.strings.hasKey s ∧
      (∀ k, c9vm.strings.hasKey k → k.chars = [99] →
        (s = k ∧
         vm' = { c9vm with buffers := c9vm.buffers.erase (5, 1 + 1) })) ∧
      ((∀ k, c9vm.strings.hasKey k → k.chars ≠ [99]) →
        (s = ⟨c9vm.nextAddr, 1, 5, [99], hashString [99]⟩ ∧
         s.charsPtr = 5 ∧
         vm'.objects = (c9vm.nextAddr, HeapData.strObj s) :: c9vm.objects ∧
         vm'.buffers = c9vm.buffers))) :=
  ⟨by decide, by decide,
   C9_takeString_buffer_ownership c9vm 0 [98] 1 (by decide) (by decide),
   C9_takeString_buffer_ownership c9vm 5 [99] 1 (by decide) (by decide)⟩

/-- C8: calling a class value overwrites the callee's stack slot (slot 0
of the would-be frame) with a freshly allocated instance of that class;
when the method table holds `init` as a closure, that closure is called
on the given arguments through `call` (so its arity is checked like any
call); without `init`, a nonzero `argCount` is a runtime error and with
zero arguments the instance is the call's result on top of the stack. -/
theorem C8_call_class (natives : Nat → Nat → List Value → Value) (vm : VM)
    (id argCount nameId : Nat) (methods : Table) (initStr : ObjString)
    (hstr : vm.initString = some initStr)
    (hclass : heapGet vm.objects id = some (HeapData.classObj nameId methods))
    (hwfm : methods.WF) (hstk : 0 < vm.stack.length) :
    ∃ vm',
      vm'.objects = (vm.nextAddr, HeapData.instanceObj id initTable) :: vm.objects ∧
      vm'.stack = vm.stack.set (vm.stack.length - argCount - 1) (Value.obj vm.nextAddr) ∧
      vm'.frames = vm.frames ∧
      (methods.lookup initStr = none → argCount ≠ 0 →
        callValue natives vm (Value.obj id) argCount
          = some (CallResult.rtError (resetStack vm'))) ∧
      (methods.lookup initStr = none → argCount = 0 →
        callValue natives vm (Value.obj id) argCount = some (CallResult.ok vm') ∧
        peek vm' 0 = Value.obj vm.nextAddr) ∧
      (∀ cid fn ups, methods.lookup initStr = some (Value.obj cid) →
        heapGet vm.objects cid = some (HeapData.closureObj fn ups) →
        cid ≠ vm.nextAddr →
        (argCount ≠ fn.arity →
          callValue natives vm (Value.obj id) argCount
            = some (CallResult.rtError (resetStack vm'))) ∧
        (argCount = fn.arity → vm.frames.length ≠ FRAMES_MAX →
          callValue natives vm (Value.obj id) argCount
            = some (CallResult.ok { vm' with frames :=
                vm'.frames ++ [⟨cid, 0, vm'.stack.length - argCount - 1⟩] }))) := by
  refine ⟨{ vm with
      objects := (vm.nextAddr, HeapData.instanceObj id initTable) :: vm.objects
      nextAddr := vm.nextAddr + 1
      stack := vm.stack.set (vm.stack.length - argCount - 1) (Value.obj vm.nextAddr) },
    rfl, rfl, rfl, ?_, ?_, ?_⟩
  · intro hlook hac
    have hget : tableGet methods initStr = some none := by
      rw [tableGet_spec methods initStr hwfm, hlook]
    simp only [callValue, allocateObject, hclass, hstr, hget]
    rw [if_pos hac]
  · intro hlook hac
    have hget : tableGet methods initStr = some none := by
      rw [tableGet_spec methods initStr hwfm, hlook]
    refine ⟨?_, ?_⟩
    · simp only [callValue, allocateObject, hclass, hstr, hget]
      rw [if_neg (fun hcon => hcon hac)]
    · subst hac
      show (vm.stack.set (vm.stack.length - 0 - 1) (Value.obj vm.nextAddr)).getD
          ((vm.stack.set (vm.stack.length - 0 - 1) (Value.obj vm.nextAddr)).length - 1 - 0)
          Value.nil = Value.obj vm.nextAddr
      rw [List.length_set]
      rw [show vm.stack.length - 1 - 0 = vm.stack.length - 0 - 1 from by omega]
      exact valGetD_set_self vm.stack (vm.stack.length - 0 - 1) _ (by omega)
  · intro cid fn ups hlook hcl hcne
    have hget : tableGet methods initStr = some (some (Value.obj cid)) := by
      rw [tableGet_spec methods initStr hwfm, hlook]
    have hG : heapGet ((vm.nextAddr, HeapData.instanceObj id initTable) :: vm.objects) cid
        = some (HeapData.closureObj fn ups) := by
      rw [heapGet_cons_ne vm.nextAddr cid _ _ hcne]
      exact hcl
    constructor
    · intro hne
      simp only [callValue, allocateObject, hclass, hstr, hget]
      unfold call
      simp only [hG]
      rw [if_pos hne]
    · intro hac hframes
      simp only [callValue, allocateObject, hclass, hstr, hget]
      unfold call
      simp only [hG]
      rw [if_neg (fun hcon => hcon hac), if_neg hframes]

/-- C8 witness: at `c8vm` (class 1 with a zero-arity `init` closure 3)
and at `c8vmNoInit` (class 1 without `init`). -/
theorem C8_call_class_witness :
    c8vm.initString = some c8initStr ∧
    heapGet c8vm.objects 1 = some (HeapData.classObj 2 c8methods) ∧
    Table.WF c8methods ∧ 0 < c8vm.stack.length ∧
    c8methods.lookup c8initStr = some (Value.obj 3) ∧
    heapGet c8vm.objects 3 = some (HeapData.closureObj ⟨4, 0⟩ []) ∧
    c8vmNoInit.initString = some c8initStr ∧
    heapGet c8vmNoInit.objects 1 = some (HeapData.classObj 2 initTable) ∧
    Table.lookup initTable c8initStr = none ∧
    (∃ vm',
      vm'.objects = (c8vm.nextAddr, HeapData.instanceObj 1 initTable) :: c8vm.objects ∧
      vm'.stack = c8vm.stack.set (c8vm.stack.length - 0 - 1) (Value.obj c8vm.nextAddr) ∧
      vm'.frames = c8vm.frames ∧
      (c8methods.lookup c8initStr = none → (0 : Nat) ≠ 0 →
        callValue (fun _ _ _ => Value.nil) c8vm (Value.obj 1) 0
          = some (CallResult.rtError (resetStack vm'))) ∧
      (c8methods.lookup c8initStr = none → (0 : Nat) = 0 →
        callValue (fun _ _ _ => Value.nil) c8vm (Value.obj 1) 0 = some (CallResult.ok vm') ∧
        peek vm' 0 = Value.obj c8vm.nextAddr) ∧
      (∀ cid fn ups, c8methods.lookup c8initStr = some (Value.obj cid) →
        heapGet c8vm.objects cid = some (HeapData.closureObj fn ups) →
        cid ≠ c8vm.nextAddr →
        ((0 : Nat) ≠ fn.arity →
          callValue (fun _ _ _ => Value.nil) c8vm (Value.obj 1) 0
            = some (CallResult.rtError (resetStack vm'))) ∧
        ((0 : Nat) = fn.arity → c8vm.frames.length ≠ FRAMES_MAX →
          callValue (fun _ _ _ => Value.nil) c8vm (Value.obj 1) 0
            = some (CallResult.ok { vm' with frames :=
                vm'.frames ++ [⟨cid, 0, vm'.stack.length - 0 - 1⟩] })))) ∧
    (∃ vm',
      vm'.objects
        = (c8vmNoInit.nextAddr, HeapData.instanceObj 1 initTable) :: c8vmNoInit.objects ∧
      vm'.stack = c8vmNoInit.stack.set (c8vmNoInit.stack.length - 2 - 1)
        (Value.obj c8vmNoInit.nextAddr) ∧
      vm'.frames = c8vmNoInit.frames ∧
      (Table.lookup initTable c8initStr = none → (2 : Nat) ≠ 0 →
        callValue (fun _ _ _ => Value.nil) c8vmNoInit (Value.obj 1) 2
          = some (CallResult.rtError (resetStack vm'))) ∧
      (Table.lookup initTable c8initStr = none → (2 : Nat) = 0 →
        callValue (fun _ _ _ => Value.nil) c8vmNoInit (Value.obj 1) 2
          = some (CallResult.ok vm') ∧
        peek vm' 0 = Value.obj c8vmNoInit.nextAddr) ∧
      (∀ cid fn ups, Table.lookup initTable c8initStr = some (Value.obj cid) →
        heapGet c8vmNoInit.objects cid = some (HeapData.closureObj fn ups) →
        cid ≠ c8vmNoInit.nextAddr →
        ((2 : Nat) ≠ fn.arity →
          callValue (fun _ _ _ => Value.nil) c8vmNoInit (Value.obj 1) 2
            = some (CallResult.rtError (resetStack vm'))) ∧
        ((2 : Nat) = fn.arity → c8vmNoInit.frames.length ≠ FRAMES_MAX →
          callValue (fun _ _ _ => Value.nil) c8vmNoInit (Value.obj 1) 2
            = some (CallResult.ok { vm' with frames :=
                vm'.frames ++ [⟨cid, 0, vm'.stack.length - 2 - 1⟩] })))) :=
  ⟨by decide, by decide, by decide, by decide, by decide, by decide, by decide, by decide,
   by decide,
   C8_call_class (fun _ _ _ => Value.nil) c8vm 1 0 2 c8methods c8initStr
     (by decide) (by decide) (by decide) (by decide),
   C8_call_class (fun _ _ _ => Value.nil) c8vmNoInit 1 2 2 initTable c8initStr
     (by decide) (by decide) (by decide) (by decide)⟩

/-- C3 counterexample: `push` has no capacity check — on a VM whose
operand stack already holds `STACK_MAX` values, `push` succeeds and the
live stack window exceeds `STACK_MAX` (the C code writes past the end
of the fixed array); no error value exists in `push`'s type at all. -/
theorem C3_stack_push_unchecked_counterexample :
    fullVM.stack.length = STACK_MAX ∧
    (push fullVM Value.nil).stack.length = STACK_MAX + 1 ∧
    STACK_MAX < (push fullVM Value.nil).stack.length := by
  have h1 : fullVM.stack.length = STACK_MAX := by
    show (List.replicate STACK_MAX Value.nil).length = STACK_MAX
    simp
  have h2 : (push fullVM Value.nil).stack.length = STACK_MAX + 1 := by
    show (fullVM.stack ++ [Value.nil]).length = STACK_MAX + 1
    rw [List.length_append, h1]
    rfl
  exact ⟨h1, h2, by omega⟩

/-- C3 (amended): only the call-frame depth is a checked hard limit —
`call` reports a runtime error at `FRAMES_MAX` frames (and on an arity
mismatch) instead of growing the frame array — while operand-stack
depth is NOT checked: `push` appends unconditionally, growing the live
window by one whatever its size. -/
theorem C3_frame_limit_checked_stack_unchecked :
    (∀ (vm : VM) (closureId argCount : Nat) (fn : FunctionRef) (ups : List Nat),
      heapGet vm.objects closureId = some (HeapData.closureObj fn ups) →
      vm.frames.length = FRAMES_MAX →
      call vm closureId argCount = some (CallResult.rtError (resetStack vm))) ∧
    (∀ (vm : VM) (closureId argCount : Nat) (fn : FunctionRef) (ups : List Nat),
      heapGet vm.objects closureId = some (HeapData.closureObj fn ups) →
      argCount ≠ fn.arity →
      call vm closureId argCount = some (CallResult.rtError (resetStack vm))) ∧
    (∀ (vm : VM) (v : Value),
      (push vm v).stack = vm.stack ++ [v] ∧
      (push vm v).stack.length = vm.stack.length + 1) := by
  refine ⟨?_, ?_, ?_⟩
  · intro vm closureId argCount fn ups hcl hframes
    unfold call
    simp only [hcl]
    by_cases harity : argCount ≠ fn.arity
    · rw [if_pos harity]
    · rw [if_neg harity, if_pos hframes]
  · intro vm closureId argCount fn ups hcl harity
    unfold call
    simp only [hcl]
    rw [if_pos harity]
  · intro vm v
    refine ⟨rfl, ?_⟩
    show (vm.stack ++ [v]).length = vm.stack.length + 1
    rw [List.length_append]
    rfl

/-- C3 (amended) witness: at `c3closVM` — all 64 frames in use, a
zero-arity closure at address 0 — a matching call and a mismatched call
both report runtime errors, and `push` still grows the stack. -/
theorem C3_frame_limit_checked_stack_unchecked_witness :
    heapGet c3closVM.objects 0
      = some (HeapData.closureObj (⟨1, 0⟩ : FunctionRef) []) ∧
    c3closVM.frames.length = FRAMES_MAX ∧
    (0 : Nat) ≠ (⟨1, 0⟩ : FunctionRef).arity + 1 ∧
    call c3closVM 0 0 = some (CallResult.rtError (resetStack c3closVM)) ∧
    ((push c3closVM Value.nil).stack = c3closVM.stack ++ [Value.nil] ∧
      (push c3closVM Value.nil).stack.length = c3closVM.stack.length + 1) :=
  ⟨by decide, by decide, by decide,
   C3_frame_limit_checked_stack_unchecked.1 c3closVM 0 0 ⟨1, 0⟩ []
     (by decide) (by decide),
   C3_frame_limit_checked_stack_unchecked.2.2 c3closVM Value.nil⟩

/-- C4: src/object.h's header is NOT what the spec says: its `ObjType`
has exactly two variants (string, function) while the discriminant the
collector and the VM switch over needs eight, and the header `Obj`
carries only the `type` tag and the `next` link — two headers agreeing
on those two fields are equal, so there is no `isMarked` bit to store
the GC color.  `allocateObject` does link every new object at the head
of the allocation list. -/
theorem C4_object_header_missing_fields :
    objTypeHeaderAll.length = 2 ∧ (∀ t : ObjTypeHeader, t ∈ objTypeHeaderAll) ∧
    objTypeAll.length = 8 ∧ (∀ t : ObjType, t ∈ objTypeAll) ∧
    objTypeHeaderAll.length ≠ objTypeAll.length ∧
    (∀ h₁ h₂ : ObjHeader, h₁ = h₂ ↔ (h₁.type = h₂.type ∧ h₁.next = h₂.next)) ∧
    (∀ (vm : VM) (d : HeapData),
      (allocateObject vm d).2 = vm.nextAddr ∧
      (allocateObject vm d).1.objects = ((allocateObject vm d).2, d) :: vm.objects) := by
  refine ⟨rfl, ?_, rfl, ?_, by decide, ?_, ?_⟩
  · intro t
    cases t <;> simp [objTypeHeaderAll]
  · intro t
    cases t <;> simp [objTypeAll]
  · intro h₁ h₂
    constructor
    · rintro rfl
      exact ⟨rfl, rfl⟩
    · intro hts
      obtain ⟨ht, hn⟩ := hts
      cases h₁
      cases h₂
      cases ht
      cases hn
      rfl
  · intro vm d
    exact ⟨rfl, rfl⟩

/-- C1: the root-marking phase does NOT mark `vm.initString` — on the
very state `initVM` builds, the first collection frees the "init"
string object (address 1) and tombstones it out of the intern table,
while `vm.initString` still references it (a dangling reference); the
"clock" name, reachable through the globals, survives the same
collection, so the loss of "init" is exactly the missing
`markObject(vm.initString)` root. -/
theorem C1_init_string_not_rooted :
    initVM = some c1vm0 ∧
    c1vm0.initString = some c1initStr ∧
    heapGet c1vm0.objects c1initStr.id = some (HeapData.strObj c1initStr) ∧
    c1vm0.strings.hasKey c1initStr ∧
    c1vm0.strings.hasKey c1clockStr ∧
    collectGarbage c1vm0 = some c1vm1 ∧
    c1vm1.initString = some c1initStr ∧
    heapGet c1vm1.objects c1initStr.id = none ∧
    ¬ c1vm1.strings.hasKey c1initStr ∧
    c1vm1.strings.hasKey c1clockStr ∧
    heapGet c1vm1.objects c1clockStr.id = some (HeapData.strObj c1clockStr) := by
  decide

/-- C2: `blackenObject` on a class marks only the class's name — the
method table is not traced and no `OBJ_BOUND_METHOD` case exists — so
on `c2vm`, whose only root is class 10 with method table
`init ↦ closure 12`, the collection frees closure 12 (and its function
13) even though both stay reachable through the surviving class. -/
theorem C2_class_blacken_skips_methods :
    heapGet c2vm.objects 10 = some (HeapData.classObj 11 c2methods) ∧
    c2methods.lookup c2initStr = some (Value.obj 12) ∧
    heapGet c2vm.objects 12 = some (HeapData.closureObj ⟨13, 0⟩ []) ∧
    blackenObject c2vm.objects ([10], []) 10 = ([11, 10], [11]) ∧
    collectGarbage c2vm = some c2vm' ∧
    heapGet c2vm'.objects 10 = some (HeapData.classObj 11 c2methods) ∧
    heapGet c2vm'.objects 11 = some (HeapData.strObj c2name) ∧
    heapGet c2vm'.objects 12 = none ∧
    heapGet c2vm'.objects 13 = none := by
  decide

end Clox
